import Mathlib

/-!
Verification development for the `qstd-config` repository.

The Python sources are shallowly embedded below:

* `Value` / `DictT` model the raw configuration mappings (nested Python
  dicts holding scalars, lists and sub-dicts).
* `cross_merge_dicts` embeds `qstd_config/utils.py::cross_merge_dicts`
  (the deep-merge strategy).
* A small heap model (`Heap`, `crossMergeH`) embeds the same function as
  imperative code acting on mutable dict objects, so that absence of
  mutation of the inputs can be stated and proved as a frame property.
* `unify_name`, `is_optional_type`, `unwrap_types`, `fillEnvList`,
  `assign_env_to_dict` embed `qstd_config/utils.py` and
  `qstd_config/env.py` (the environment-field compiler and loader).
* `ConfigProperty`, `mgrAssignEnvToDict`, `initConfigPaths`,
  `load_configuration` embed `qstd_config/manager.py`.
* `PModel`, `CfgObj`, `imCreate`, `imUpdate`, `mpUpdateObj` embed the
  validated-model construction/update logic of `qstd_config/config.py`.
* `MpSys` / `mpStep` embed `qstd_config/storage.py::MultiprocessingStorage`.
* `MpContext2` / `MpDictStorage` are modelled from the spec for the
  `MultiprocessingDictStorage` backend whose implementation is absent from
  the sources (only its tests are present).
-/

set_option maxHeartbeats 1600000

/-- A Python value as it appears inside a raw configuration mapping:
`None`, a scalar, a list, or a nested dict (assoc list in insertion order). -/
inductive Value where
  | vNone
  | vBool (b : Bool)
  | vInt (n : Int)
  | vStr (s : String)
  | vList (xs : List Value)
  | vDict (entries : List (String × Value))

/-- A raw configuration mapping: an insertion-ordered association list,
the embedding of a Python `dict` (whose keys are unique). -/
abbrev DictT := List (String × Value)

/-- Membership test for a key, embedding Python `key in d`. -/
def dictHasKey (d : DictT) (k : String) : Bool :=
  d.any (fun e => e.1 == k)

/-- Lookup, embedding Python `d[key]` (first occurrence). -/
def dictGet (d : DictT) (k : String) : Option Value :=
  match d with
  | [] => none
  | (k1, v1) :: rest => if k1 == k then some v1 else dictGet rest k

/-- Assignment `d[key] = v`: replace the first occurrence of the key in
place, or append the key at the end, exactly as a Python dict does. -/
def dictSet (d : DictT) (k : String) (v : Value) : DictT :=
  match d with
  | [] => [(k, v)]
  | (k1, v1) :: rest => if k1 == k then (k1, v) :: rest else (k1, v1) :: dictSet rest k v

@[simp] theorem dictHasKey_nil (k : String) : dictHasKey [] k = false := rfl

@[simp] theorem dictHasKey_cons (k1 : String) (v1 : Value) (rest : DictT) (k : String) :
    dictHasKey ((k1, v1) :: rest) k = (k1 == k || dictHasKey rest k) := by
  simp [dictHasKey, List.any_cons]

theorem dictGet_set_self (d : DictT) (k : String) (v : Value) :
    dictGet (dictSet d k v) k = some v := by
  induction d with
  | nil => simp [dictSet, dictGet]
  | cons e rest ih =>
    obtain ⟨k1, v1⟩ := e
    by_cases h : k1 = k
    · simp [dictSet, dictGet, h]
    · simp [dictSet, dictGet, h, ih]

theorem dictGet_set_ne (d : DictT) (k1 k : String) (v : Value) (h : k1 ≠ k) :
    dictGet (dictSet d k1 v) k = dictGet d k := by
  induction d with
  | nil => simp [dictSet, dictGet, h]
  | cons e rest ih =>
    obtain ⟨k2, v2⟩ := e
    by_cases h2 : k2 = k1
    · subst h2
      simp [dictSet, dictGet, h]
    · simp [dictSet, dictGet, h2, ih]

theorem dictHasKey_set (d : DictT) (k1 k : String) (v : Value) :
    dictHasKey (dictSet d k1 v) k = (k1 == k || dictHasKey d k) := by
  induction d with
  | nil => simp [dictSet, dictHasKey]
  | cons e rest ih =>
    obtain ⟨k2, v2⟩ := e
    by_cases h2 : k2 = k1
    · subst h2
      simp [dictSet]
    · simp only [dictSet, beq_iff_eq, h2, if_false, dictHasKey_cons, ih]
      cases h3 : (k2 == k) <;> cases h4 : (k1 == k) <;> simp [h3, h4]

theorem dictGet_isSome_of_hasKey (d : DictT) (k : String) (h : dictHasKey d k = true) :
    ∃ v, dictGet d k = some v := by
  induction d with
  | nil => simp [dictHasKey] at h
  | cons e rest ih =>
    obtain ⟨k1, v1⟩ := e
    by_cases h1 : k1 = k
    · exact ⟨v1, by simp [dictGet, h1]⟩
    · simp only [dictHasKey_cons, Bool.or_eq_true, beq_iff_eq] at h
      rcases h with h | h
      · exact absurd h h1
      · obtain ⟨v, hv⟩ := ih h
        exact ⟨v, by simp [dictGet, h1, hv]⟩

theorem dictGet_none_of_not_hasKey (d : DictT) (k : String) (h : dictHasKey d k = false) :
    dictGet d k = none := by
  induction d with
  | nil => rfl
  | cons e rest ih =>
    obtain ⟨k1, v1⟩ := e
    simp only [dictHasKey_cons, Bool.or_eq_false_iff, beq_eq_false_iff_ne, ne_eq] at h
    simp [dictGet, h.1, ih h.2]

/-- Replacing the first occurrence of a key by the value it already holds
leaves the mapping unchanged. -/
theorem dictSet_get_self (d : DictT) (k : String) (v : Value) (h : dictGet d k = some v) :
    dictSet d k v = d := by
  induction d with
  | nil => simp [dictGet] at h
  | cons e rest ih =>
    obtain ⟨k1, v1⟩ := e
    by_cases h1 : k1 = k
    · simp only [dictGet, h1, beq_self_eq_true, if_true, Option.some.injEq] at h
      simp [dictSet, h1, h]
    · simp only [dictGet, beq_iff_eq, h1, if_false] at h
      simp [dictSet, h1, ih h]

mutual
/-- One iteration of the `for key, value in dict_b.items()` loop body of
`qstd_config/utils.py::cross_merge_dicts`:

```
if key not in result:     result[key] = value
elif isinstance(value, dict) and isinstance(result[key], dict):
                          result[key] = cross_merge_dicts(result[key], value)
else:                     result[key] = value
```
-/
def mergeInto (result : DictT) (k : String) (v : Value) : DictT :=
  if dictHasKey result k then
    match v with
    | .vDict bv =>
      match dictGet result k with
      | some (.vDict av) => dictSet result k (.vDict (mergeLoop av bv))
      | _ => dictSet result k v
    | _ => dictSet result k v
  else dictSet result k v
termination_by sizeOf v + 1
decreasing_by
  all_goals simp_wf
  all_goals omega
/-- The whole loop of `cross_merge_dicts`, folding the entries of `dict_b`
into `result` (which starts as a copy of `dict_a`). -/
def mergeLoop (result : DictT) (b : DictT) : DictT :=
  match b with
  | [] => result
  | (k, v) :: rest => mergeLoop (mergeInto result k v) rest
termination_by sizeOf b
decreasing_by
  all_goals simp_wf
  all_goals omega
end

/-- `cross_merge_dicts(dict_a, dict_b)`: deep merge of two raw mappings,
`dict_b` taking precedence.  In this pure embedding the initial
`copy.deepcopy(dict_a)` is the identity; the imperative heap embedding
below accounts for the mutation behaviour. -/
def cross_merge_dicts (a : DictT) (b : DictT) : DictT :=
  mergeLoop a b

@[simp] theorem mergeLoop_nil (a : DictT) : mergeLoop a [] = a := by
  rw [mergeLoop]

theorem mergeLoop_cons (a : DictT) (k1 : String) (v1 : Value) (rest : DictT) :
    mergeLoop a ((k1, v1) :: rest) = mergeLoop (mergeInto a k1 v1) rest := by
  rw [mergeLoop]

/-- Uniqueness of keys in a raw mapping, the invariant every Python dict
satisfies by construction. -/
def dictKeysUnique : DictT → Bool
  | [] => true
  | (k, _) :: rest => !(dictHasKey rest k) && dictKeysUnique rest

/-- The branch condition of `cross_merge_dicts`: both the override value
and the base value under the key are nested mappings. -/
def bothDicts : Value → Option Value → Bool
  | .vDict _, some (.vDict _) => true
  | _, _ => false

theorem dictHasKey_of_get_some (d : DictT) (k : String) (v : Value)
    (h : dictGet d k = some v) : dictHasKey d k = true := by
  induction d with
  | nil => simp [dictGet] at h
  | cons e rest ih =>
    obtain ⟨k1, v1⟩ := e
    by_cases h1 : k1 = k
    · simp [h1]
    · simp only [dictGet, beq_iff_eq, h1, if_false] at h
      simp [h1, ih h]

/-- A loop-body step only rewrites the current key. -/
theorem mergeInto_get_ne (a : DictT) (k1 k : String) (v : Value) (h : k1 ≠ k) :
    dictGet (mergeInto a k1 v) k = dictGet a k := by
  rw [mergeInto.eq_def]
  cases v with
  | vDict bv =>
    by_cases hk : dictHasKey a k1
    · simp only [hk, if_true]
      cases hga : dictGet a k1 with
      | none => simp [dictGet_set_ne _ _ _ _ h]
      | some av => cases av <;> simp [dictGet_set_ne _ _ _ _ h]
    · simp [hk, dictGet_set_ne _ _ _ _ h]
  | vNone => by_cases hk : dictHasKey a k1 <;> simp [hk, dictGet_set_ne _ _ _ _ h]
  | vBool b => by_cases hk : dictHasKey a k1 <;> simp [hk, dictGet_set_ne _ _ _ _ h]
  | vInt n => by_cases hk : dictHasKey a k1 <;> simp [hk, dictGet_set_ne _ _ _ _ h]
  | vStr s => by_cases hk : dictHasKey a k1 <;> simp [hk, dictGet_set_ne _ _ _ _ h]
  | vList xs => by_cases hk : dictHasKey a k1 <;> simp [hk, dictGet_set_ne _ _ _ _ h]

/-- Loop-body step, recursion branch: both sides hold nested mappings. -/
theorem mergeInto_get_self_dicts (a : DictT) (k : String) (av bv : DictT)
    (hga : dictGet a k = some (.vDict av)) :
    dictGet (mergeInto a k (.vDict bv)) k = some (.vDict (mergeLoop av bv)) := by
  have hk : dictHasKey a k = true := dictHasKey_of_get_some _ _ _ hga
  rw [mergeInto.eq_def]
  simp [hk, hga, dictGet_set_self]

/-- Loop-body step, override branch: any other shape replaces wholesale. -/
theorem mergeInto_get_self_other (a : DictT) (k : String) (v : Value)
    (hnd : bothDicts v (dictGet a k) = false) :
    dictGet (mergeInto a k v) k = some v := by
  rw [mergeInto.eq_def]
  cases v with
  | vDict bv =>
    by_cases hk : dictHasKey a k
    · simp only [hk, if_true]
      cases hga : dictGet a k with
      | none => simp [dictGet_set_self]
      | some av =>
        cases av <;> simp_all [bothDicts, dictGet_set_self]
    · simp [hk, dictGet_set_self]
  | vNone => by_cases hk : dictHasKey a k <;> simp [hk, dictGet_set_self]
  | vBool b => by_cases hk : dictHasKey a k <;> simp [hk, dictGet_set_self]
  | vInt n => by_cases hk : dictHasKey a k <;> simp [hk, dictGet_set_self]
  | vStr s => by_cases hk : dictHasKey a k <;> simp [hk, dictGet_set_self]
  | vList xs => by_cases hk : dictHasKey a k <;> simp [hk, dictGet_set_self]

/-- Lookups of keys not written by the loop are unchanged. -/
theorem mergeLoop_get_not_in_b (a b : DictT) (k : String)
    (h : dictHasKey b k = false) : dictGet (mergeLoop a b) k = dictGet a k := by
  induction b generalizing a with
  | nil => simp
  | cons e rest ih =>
    obtain ⟨k1, v1⟩ := e
    simp only [dictHasKey_cons, Bool.or_eq_false_iff, beq_eq_false_iff_ne, ne_eq] at h
    rw [mergeLoop_cons, ih _ h.2, mergeInto_get_ne _ _ _ _ h.1]

/-- Recursion case of the whole loop, for `dict_b` with unique keys. -/
theorem mergeLoop_get_mem_dicts (b : DictT) (k : String) (bv : DictT)
    (hb : dictKeysUnique b = true) (hgb : dictGet b k = some (.vDict bv)) :
    ∀ a av, dictGet a k = some (.vDict av) →
      dictGet (mergeLoop a b) k = some (.vDict (mergeLoop av bv)) := by
  induction b with
  | nil => simp [dictGet] at hgb
  | cons e rest ih =>
    intro a av hga
    obtain ⟨k1, v1⟩ := e
    simp only [dictKeysUnique, Bool.and_eq_true, Bool.not_eq_true'] at hb
    by_cases h1 : k1 = k
    · subst h1
      simp only [dictGet, beq_self_eq_true, if_true, Option.some.injEq] at hgb
      subst hgb
      rw [mergeLoop_cons, mergeLoop_get_not_in_b _ _ _ hb.1,
        mergeInto_get_self_dicts _ _ _ _ hga]
    · simp only [dictGet, beq_iff_eq, h1, if_false] at hgb
      rw [mergeLoop_cons]
      exact ih hb.2 hgb _ av (by rw [mergeInto_get_ne _ _ _ _ h1, hga])

/-- Override case of the whole loop, for `dict_b` with unique keys. -/
theorem mergeLoop_get_mem_other (b : DictT) (k : String) (v : Value)
    (hb : dictKeysUnique b = true) (hgb : dictGet b k = some v) :
    ∀ a, bothDicts v (dictGet a k) = false →
      dictGet (mergeLoop a b) k = some v := by
  induction b with
  | nil => simp [dictGet] at hgb
  | cons e rest ih =>
    intro a hnd
    obtain ⟨k1, v1⟩ := e
    simp only [dictKeysUnique, Bool.and_eq_true, Bool.not_eq_true'] at hb
    by_cases h1 : k1 = k
    · subst h1
      simp only [dictGet, beq_self_eq_true, if_true, Option.some.injEq] at hgb
      subst hgb
      rw [mergeLoop_cons, mergeLoop_get_not_in_b _ _ _ hb.1,
        mergeInto_get_self_other _ _ _ hnd]
    · simp only [dictGet, beq_iff_eq, h1, if_false] at hgb
      rw [mergeLoop_cons]
      exact ih hb.2 hgb _ (by rw [mergeInto_get_ne _ _ _ _ h1]; exact hnd)

/-- Recursion case of the deep merge: when both sides hold nested mappings
under a key, the merge result holds their recursive merge. -/
theorem cross_merge_recurse (a b av bv : DictT) (k : String)
    (hb : dictKeysUnique b = true)
    (hgb : dictGet b k = some (.vDict bv)) (hga : dictGet a k = some (.vDict av)) :
    dictGet (cross_merge_dicts a b) k = some (.vDict (cross_merge_dicts av bv)) :=
  mergeLoop_get_mem_dicts b k bv hb hgb a av hga

/-- Override case of the deep merge: in every other shape the override
value replaces the base value wholesale. -/
theorem cross_merge_override (a b : DictT) (k : String) (v : Value)
    (hb : dictKeysUnique b = true) (hgb : dictGet b k = some v)
    (hnd : bothDicts v (dictGet a k) = false) :
    dictGet (cross_merge_dicts a b) k = some v :=
  mergeLoop_get_mem_other b k v hb hgb a hnd

/-- Keys present only in the base mapping keep their base value. -/
theorem cross_merge_base_only (a b : DictT) (k : String)
    (h : dictHasKey b k = false) :
    dictGet (cross_merge_dicts a b) k = dictGet a k :=
  mergeLoop_get_not_in_b a b k h

mutual
/-- Well-formedness of an embedded Python value: every dict reachable
through dict values has unique keys (true of every real Python object). -/
def valWF : Value → Bool
  | .vDict d => dictWF d
  | _ => true
/-- Well-formedness of an embedded Python dict. -/
def dictWF : DictT → Bool
  | [] => true
  | (k, v) :: rest => !(dictHasKey rest k) && valWF v && dictWF rest
end

theorem dictHasKey_of_mem (d : DictT) (k : String) (v : Value) (h : (k, v) ∈ d) :
    dictHasKey d k = true := by
  induction d with
  | nil => simp at h
  | cons e rest ih =>
    obtain ⟨k1, v1⟩ := e
    rcases List.mem_cons.1 h with h | h
    · obtain ⟨h1, _⟩ := Prod.mk.injEq .. ▸ h
      simp [Prod.ext_iff] at h
      simp [h.1]
    · simp [ih h]

theorem dictWF_get_of_mem (d : DictT) (k : String) (v : Value)
    (hwf : dictWF d = true) (h : (k, v) ∈ d) : dictGet d k = some v := by
  induction d with
  | nil => simp at h
  | cons e rest ih =>
    obtain ⟨k1, v1⟩ := e
    rw [dictWF] at hwf
    simp only [Bool.and_eq_true, Bool.not_eq_true'] at hwf
    rcases List.mem_cons.1 h with h | h
    · simp [Prod.ext_iff] at h
      simp [dictGet, h.1, h.2]
    · have hne : k1 ≠ k := by
        intro heq
        subst heq
        exact absurd (dictHasKey_of_mem rest k1 v h) (by simp [hwf.1.1])
      simp [dictGet, hne, ih hwf.2 h]

theorem dictWF_valWF_of_mem (d : DictT) (k : String) (v : Value)
    (hwf : dictWF d = true) (h : (k, v) ∈ d) : valWF v = true := by
  induction d with
  | nil => simp at h
  | cons e rest ih =>
    obtain ⟨k1, v1⟩ := e
    rw [dictWF] at hwf
    simp only [Bool.and_eq_true, Bool.not_eq_true'] at hwf
    rcases List.mem_cons.1 h with h | h
    · simp [Prod.ext_iff] at h
      rw [h.2]
      exact hwf.1.2
    · exact ih hwf.2 h

/-- Merging a well-formed mapping with itself is the identity, proved by
strong induction on the size of the mapping. -/
theorem cross_merge_idem_bounded :
    ∀ (n : Nat) (a : DictT), sizeOf a ≤ n → dictWF a = true → mergeLoop a a = a := by
  intro n
  induction n with
  | zero =>
    intro a ha _
    cases a with
    | nil => simp at ha
    | cons e rest => simp at ha
  | succ n ih =>
    intro a ha hwf
    have loop : ∀ b : DictT,
        (∀ k v, (k, v) ∈ b →
          dictGet a k = some v ∧ valWF v = true ∧ sizeOf v < sizeOf a) →
        mergeLoop a b = a := by
      intro b
      induction b with
      | nil => simp
      | cons e rest ihb =>
        obtain ⟨k, v⟩ := e
        intro hmem
        obtain ⟨hget, hvwf, hsz⟩ := hmem k v (List.mem_cons_self _ _)
        rw [mergeLoop_cons]
        have step : mergeInto a k v = a := by
          have hk : dictHasKey a k = true := dictHasKey_of_get_some _ _ _ hget
          rw [mergeInto.eq_def]
          cases v with
          | vDict bv =>
            have hsub : mergeLoop bv bv = bv := by
              apply ih bv _ (by rw [valWF] at hvwf; exact hvwf)
              have : sizeOf (Value.vDict bv) = 1 + sizeOf bv := by simp
              omega
            simp [hk, hget, hsub, dictSet_get_self _ _ _ hget]
          | vNone => simp [hk, dictSet_get_self _ _ _ hget]
          | vBool b => simp [hk, dictSet_get_self _ _ _ hget]
          | vInt m => simp [hk, dictSet_get_self _ _ _ hget]
          | vStr s => simp [hk, dictSet_get_self _ _ _ hget]
          | vList xs => simp [hk, dictSet_get_self _ _ _ hget]
        rw [step]
        exact ihb (fun k v h => hmem k v (List.mem_cons_of_mem _ h))
    apply loop
    intro k v hmem
    refine ⟨dictWF_get_of_mem a k v hwf hmem, dictWF_valWF_of_mem a k v hwf hmem, ?_⟩
    have h1 : sizeOf (k, v) ≤ sizeOf a := le_of_lt (List.sizeOf_lt_of_mem hmem)
    have h2 : sizeOf (k, v) = 1 + sizeOf k + sizeOf v := by simp
    omega

/-- `merge(A, A) == A` for every well-formed raw mapping `A`. -/
theorem cross_merge_self (a : DictT) (hwf : dictWF a = true) :
    cross_merge_dicts a a = a :=
  cross_merge_idem_bounded (sizeOf a) a (Nat.le_refl _) hwf

/-- A slot value in the imperative embedding: an immutable object (scalars,
strings, lists treated as opaque values since the merge never writes into
them) or a reference to a mutable dict living in the heap. -/
inductive HVal where
  | prim (v : Value)
  | ref (a : Nat)

/-- The entry list of one mutable dict object. -/
abbrev HEntries := List (String × HVal)

/-- A heap of mutable Python dict objects, addressed by allocation order. -/
structure Heap where
  nextAddr : Nat
  mem : Nat → Option HEntries

def hentriesHasKey (es : HEntries) (k : String) : Bool :=
  es.any (fun e => e.1 == k)

def hentriesGet (es : HEntries) (k : String) : Option HVal :=
  match es with
  | [] => none
  | (k1, v1) :: rest => if k1 == k then some v1 else hentriesGet rest k

def hentriesSet (es : HEntries) (k : String) (v : HVal) : HEntries :=
  match es with
  | [] => [(k, v)]
  | (k1, v1) :: rest => if k1 == k then (k1, v) :: rest else (k1, v1) :: hentriesSet rest k v

/-- Allocate a fresh dict object. -/
def Heap.alloc (h : Heap) (es : HEntries) : Heap × Nat :=
  (⟨h.nextAddr + 1, fun x => if x = h.nextAddr then some es else h.mem x⟩, h.nextAddr)

/-- The store `obj[key] = value` on the dict object at address `a`. -/
def Heap.setKey (h : Heap) (a : Nat) (k : String) (v : HVal) : Heap :=
  match h.mem a with
  | some es => ⟨h.nextAddr, fun x => if x = a then some (hentriesSet es k v) else h.mem x⟩
  | none => h

@[simp] theorem Heap.setKey_nextAddr (h : Heap) (a : Nat) (k : String) (v : HVal) :
    (h.setKey a k v).nextAddr = h.nextAddr := by
  rw [Heap.setKey]
  cases h.mem a <;> rfl

theorem Heap.setKey_mem_ne (h : Heap) (a : Nat) (k : String) (v : HVal) (x : Nat)
    (hx : x ≠ a) : (h.setKey a k v).mem x = h.mem x := by
  rw [Heap.setKey]
  cases h.mem a <;> simp [hx]

/-- The result heap keeps every pre-existing cell of the argument heap
untouched: nothing below the old allocation frontier is written. -/
def Heap.preserves (h h2 : Heap) : Prop :=
  h.nextAddr ≤ h2.nextAddr ∧ ∀ x, x < h.nextAddr → h2.mem x = h.mem x

theorem Heap.preserves_refl (h : Heap) : h.preserves h :=
  ⟨Nat.le_refl _, fun _ _ => rfl⟩

theorem Heap.preserves_trans {h h2 h3 : Heap} (p1 : h.preserves h2) (p2 : h2.preserves h3) :
    h.preserves h3 :=
  ⟨Nat.le_trans p1.1 p2.1, fun x hx => by
    rw [p2.2 x (Nat.lt_of_lt_of_le hx p1.1), p1.2 x hx]⟩

theorem Heap.preserves_alloc (h : Heap) (es : HEntries) : h.preserves (h.alloc es).1 :=
  ⟨Nat.le_succ _, fun x hx => by simp [Heap.alloc, Nat.ne_of_lt hx]⟩

theorem Heap.preserves_setKey (h : Heap) (a : Nat) (k : String) (v : HVal)
    (ha : h.nextAddr ≤ a) : h.preserves (h.setKey a k v) :=
  ⟨Nat.le_of_eq (h.setKey_nextAddr a k v).symm,
   fun x hx => h.setKey_mem_ne a k v x (Nat.ne_of_lt (Nat.lt_of_lt_of_le hx ha))⟩

mutual
/-- Imperative embedding of `copy.deepcopy(dict_a)`: recursively copy a
dict object into freshly allocated cells.  `fuel` bounds the recursion
depth (real Python heaps are finite and acyclic via deepcopy's memo). -/
def deepcopyAddr (fuel : Nat) (h : Heap) (a : Nat) : Heap × Option Nat :=
  match fuel with
  | 0 => (h, none)
  | f + 1 =>
    match h.mem a with
    | none => (h, none)
    | some es =>
      let hr := h.alloc []
      deepcopyEntries f hr.1 hr.2 es
termination_by (fuel, 0)
/-- Copy the entries of a source dict one by one into the fresh object. -/
def deepcopyEntries (fuel : Nat) (h : Heap) (dst : Nat) (es : HEntries) :
    Heap × Option Nat :=
  match es with
  | [] => (h, some dst)
  | (k, v) :: rest =>
    match v with
    | .prim p => deepcopyEntries fuel (h.setKey dst k (.prim p)) dst rest
    | .ref c =>
      let hc := deepcopyAddr fuel h c
      match hc.2 with
      | some c2 => deepcopyEntries fuel (hc.1.setKey dst k (.ref c2)) dst rest
      | none => (hc.1, none)
termination_by (fuel, es.length + 1)
end

mutual
/-- Imperative embedding of `qstd_config/utils.py::cross_merge_dicts` on
the heap: deep-copy `dict_a`, then fold the entries of `dict_b` into the
copy, mutating only the copy. -/
def crossMergeH (fuel : Nat) (h : Heap) (a b : Nat) : Heap × Option Nat :=
  match fuel with
  | 0 => (h, none)
  | f + 1 =>
    let hr := deepcopyAddr (f + 1) h a
    match hr.2 with
    | none => (hr.1, none)
    | some r =>
      match hr.1.mem b with
      | none => (hr.1, none)
      | some bEntries => mergeEntriesH f hr.1 r bEntries
termination_by (fuel, 0)
/-- The `for key, value in dict_b.items()` loop of the heap embedding. -/
def mergeEntriesH (fuel : Nat) (h : Heap) (r : Nat) (es : HEntries) :
    Heap × Option Nat :=
  match es with
  | [] => (h, some r)
  | (k, v) :: rest =>
    let resultEntries := (h.mem r).getD []
    if ¬ hentriesHasKey resultEntries k then
      mergeEntriesH fuel (h.setKey r k v) r rest
    else
      match v with
      | .ref bv =>
        match hentriesGet resultEntries k with
        | some (.ref av) =>
          let hm := crossMergeH fuel h av bv
          match hm.2 with
          | some m => mergeEntriesH fuel (hm.1.setKey r k (.ref m)) r rest
          | none => (hm.1, none)
        | _ => mergeEntriesH fuel (h.setKey r k v) r rest
      | .prim p => mergeEntriesH fuel (h.setKey r k (.prim p)) r rest
termination_by (fuel, es.length + 1)
end

theorem deepcopyEntries_ret (es : HEntries) (fuel : Nat) (h : Heap) (dst r : Nat)
    (hr : (deepcopyEntries fuel h dst es).2 = some r) : r = dst := by
  induction es generalizing h with
  | nil =>
    rw [deepcopyEntries] at hr
    exact (Option.some.injEq .. ▸ hr).symm
  | cons e rest ih =>
    obtain ⟨k, v⟩ := e
    rw [deepcopyEntries.eq_def] at hr
    cases v with
    | prim p => exact ih _ hr
    | ref c =>
      simp only at hr
      cases hc2 : (deepcopyAddr fuel h c).2 with
      | none => rw [hc2] at hr; simp at hr
      | some c2 => rw [hc2] at hr; exact ih _ hr

/-- Frame property of the entry-copy loop: relative to any frontier `n`
below both the current allocation frontier and the (fresh) destination
object, no cell below `n` is written. -/
theorem deepcopyEntriesFrameAux (fuel : Nat)
    (hA : ∀ (h : Heap) (a : Nat), h.preserves (deepcopyAddr fuel h a).1) :
    ∀ (es : HEntries) (h : Heap) (dst n : Nat), n ≤ h.nextAddr → n ≤ dst →
      n ≤ (deepcopyEntries fuel h dst es).1.nextAddr ∧
      ∀ x, x < n → (deepcopyEntries fuel h dst es).1.mem x = h.mem x := by
  intro es
  induction es with
  | nil =>
    intro h dst n hn _
    rw [deepcopyEntries]
    exact ⟨hn, fun _ _ => rfl⟩
  | cons e rest ih =>
    intro h dst n hn hdst
    obtain ⟨k, v⟩ := e
    rw [deepcopyEntries.eq_def]
    cases v with
    | prim p =>
      have hset : ∀ x, x < n → (h.setKey dst k (.prim p)).mem x = h.mem x := by
        intro x hx
        exact h.setKey_mem_ne dst k _ x (by omega)
      have hnext : (h.setKey dst k (.prim p)).nextAddr = h.nextAddr :=
        h.setKey_nextAddr dst k _
      obtain ⟨h1, h2⟩ := ih (h.setKey dst k (.prim p)) dst n (by omega) hdst
      exact ⟨h1, fun x hx => by rw [h2 x hx, hset x hx]⟩
    | ref c =>
      have hpre := hA h c
      cases hc2 : (deepcopyAddr fuel h c).2 with
      | none =>
        simp only [hc2]
        refine ⟨by have := hpre.1; omega, ?_⟩
        intro x hx
        exact hpre.2 x (by omega)
      | some c2 =>
        simp only [hc2]
        have hn1 : n ≤ (deepcopyAddr fuel h c).1.nextAddr := by
          have := hpre.1
          omega
        have hset : ∀ x, x < n →
            ((deepcopyAddr fuel h c).1.setKey dst k (.ref c2)).mem x = h.mem x := by
          intro x hx
          rw [Heap.setKey_mem_ne _ dst k _ x (by omega)]
          exact hpre.2 x (by omega)
        obtain ⟨h1, h2⟩ := ih ((deepcopyAddr fuel h c).1.setKey dst k (.ref c2)) dst n
          (by rw [Heap.setKey_nextAddr]; omega) hdst
        exact ⟨h1, fun x hx => by rw [h2 x hx, hset x hx]⟩

/-- Frame property of `deepcopy`: the argument heap is only extended, every
pre-existing cell is untouched. -/
theorem deepcopyAddrFrame :
    ∀ (fuel : Nat) (h : Heap) (a : Nat), h.preserves (deepcopyAddr fuel h a).1 := by
  intro fuel
  induction fuel with
  | zero =>
    intro h a
    rw [deepcopyAddr]
    exact h.preserves_refl
  | succ f ihf =>
    intro h a
    rw [deepcopyAddr.eq_def]
    cases hma : h.mem a with
    | none => exact h.preserves_refl
    | some es =>
      simp only
      have halloc := h.preserves_alloc []
      obtain ⟨h1, h2⟩ := deepcopyEntriesFrameAux f ihf es (h.alloc []).1 (h.alloc []).2
        h.nextAddr (by simp [Heap.alloc]) (by simp [Heap.alloc])
      refine ⟨h1, ?_⟩
      intro x hx
      rw [h2 x hx, halloc.2 x hx]

/-- The fresh root returned by `deepcopy` lies at or above the old
allocation frontier of the argument heap. -/
theorem deepcopyAddr_ret (fuel : Nat) (h : Heap) (a r : Nat)
    (hr : (deepcopyAddr fuel h a).2 = some r) : h.nextAddr ≤ r := by
  cases fuel with
  | zero => rw [deepcopyAddr] at hr; simp at hr
  | succ f =>
    rw [deepcopyAddr.eq_def] at hr
    cases hma : h.mem a with
    | none => rw [hma] at hr; simp at hr
    | some es =>
      rw [hma] at hr
      simp only at hr
      have := deepcopyEntries_ret es f (h.alloc []).1 (h.alloc []).2 r hr
      simp [Heap.alloc] at this
      omega

/-- Frame property of the merge loop over the entries of `dict_b`,
relative to a frontier `n` below the (freshly copied) result object. -/
theorem mergeEntriesFrameAux (fuel : Nat)
    (hC : ∀ (h : Heap) (a b : Nat), h.preserves (crossMergeH fuel h a b).1) :
    ∀ (es : HEntries) (h : Heap) (r n : Nat), n ≤ h.nextAddr → n ≤ r →
      n ≤ (mergeEntriesH fuel h r es).1.nextAddr ∧
      ∀ x, x < n → (mergeEntriesH fuel h r es).1.mem x = h.mem x := by
  intro es
  induction es with
  | nil =>
    intro h r n hn _
    rw [mergeEntriesH]
    exact ⟨hn, fun _ _ => rfl⟩
  | cons e rest ih =>
    intro h r n hn hr
    obtain ⟨k, v⟩ := e
    rw [mergeEntriesH.eq_def]
    simp only
    have hsetcase : ∀ w : HVal,
        n ≤ (mergeEntriesH fuel (h.setKey r k w) r rest).1.nextAddr ∧
        ∀ x, x < n → (mergeEntriesH fuel (h.setKey r k w) r rest).1.mem x = h.mem x := by
      intro w
      have hset : ∀ x, x < n → (h.setKey r k w).mem x = h.mem x := by
        intro x hx
        exact h.setKey_mem_ne r k _ x (by omega)
      obtain ⟨h1, h2⟩ := ih (h.setKey r k w) r n (by rw [Heap.setKey_nextAddr]; omega) hr
      exact ⟨h1, fun x hx => by rw [h2 x hx, hset x hx]⟩
    split
    · exact hsetcase v
    · cases v with
      | prim p => exact hsetcase (.prim p)
      | ref bv =>
        cases hga : hentriesGet ((h.mem r).getD []) k with
        | none => simp only [hga]; exact hsetcase (.ref bv)
        | some w =>
          cases w with
          | prim q => simp only [hga]; exact hsetcase (.ref bv)
          | ref av =>
            simp only [hga]
            have hpre := hC h av bv
            cases hm2 : (crossMergeH fuel h av bv).2 with
            | none =>
              simp only [hm2]
              refine ⟨by have := hpre.1; omega, ?_⟩
              intro x hx
              exact hpre.2 x (by omega)
            | some m =>
              simp only [hm2]
              have hset : ∀ x, x < n →
                  ((crossMergeH fuel h av bv).1.setKey r k (.ref m)).mem x = h.mem x := by
                intro x hx
                rw [Heap.setKey_mem_ne _ r k _ x (by omega)]
                exact hpre.2 x (by omega)
              obtain ⟨h1, h2⟩ := ih ((crossMergeH fuel h av bv).1.setKey r k (.ref m)) r n
                (by rw [Heap.setKey_nextAddr]; have := hpre.1; omega) hr
              exact ⟨h1, fun x hx => by rw [h2 x hx, hset x hx]⟩

/-- The merge never mutates any pre-existing heap object: running
`cross_merge_dicts` on the heap only allocates new cells, so both input
mappings (and everything else already allocated) are left untouched. -/
theorem crossMergeH_frame :
    ∀ (fuel : Nat) (h : Heap) (a b : Nat), h.preserves (crossMergeH fuel h a b).1 := by
  intro fuel
  induction fuel with
  | zero =>
    intro h a b
    rw [crossMergeH]
    exact h.preserves_refl
  | succ f ihf =>
    intro h a b
    rw [crossMergeH.eq_def]
    simp only
    have hdpre := deepcopyAddrFrame (f + 1) h a
    cases hr2 : (deepcopyAddr (f + 1) h a).2 with
    | none =>
      simp only [hr2]
      exact hdpre
    | some r =>
      simp only [hr2]
      cases hmb : (deepcopyAddr (f + 1) h a).1.mem b with
      | none => exact hdpre
      | some bEntries =>
        have hrge : h.nextAddr ≤ r := deepcopyAddr_ret (f + 1) h a r hr2
        obtain ⟨h1, h2⟩ := mergeEntriesFrameAux f ihf bEntries (deepcopyAddr (f + 1) h a).1
          r h.nextAddr (by have := hdpre.1; omega) hrge
        refine ⟨h1, ?_⟩
        intro x hx
        rw [h2 x hx, hdpre.2 x hx]

theorem bothDicts_none (v : Value) : bothDicts v none = false := by
  cases v <;> rfl

/-- C2: for all nested mappings `base` and `override`, `merge` recurses
when both `base[key]` and `override[key]` are nested mappings, otherwise
`override[key]` replaces `base[key]` wholesale; every key present only in
`base` keeps its base value; and the imperative merge mutates neither
input mapping (it writes only into freshly allocated heap cells). -/
theorem claim_C2_cross_merge_semantics (a b av bv : DictT) (k : String) (v : Value) :
    (dictKeysUnique b = true → dictGet b k = some (.vDict bv) →
      dictGet a k = some (.vDict av) →
      dictGet (cross_merge_dicts a b) k = some (.vDict (cross_merge_dicts av bv))) ∧
    (dictKeysUnique b = true → dictGet b k = some v →
      bothDicts v (dictGet a k) = false →
      dictGet (cross_merge_dicts a b) k = some v) ∧
    (dictHasKey b k = false → dictGet (cross_merge_dicts a b) k = dictGet a k) ∧
    (∀ (fuel : Nat) (hp : Heap) (da db : Nat),
      hp.nextAddr ≤ (crossMergeH fuel hp da db).1.nextAddr ∧
      ∀ x, x < hp.nextAddr → (crossMergeH fuel hp da db).1.mem x = hp.mem x) :=
  ⟨fun hb hgb hga => cross_merge_recurse a b av bv k hb hgb hga,
   fun hb hgb hnd => cross_merge_override a b k v hb hgb hnd,
   fun h => cross_merge_base_only a b k h,
   fun fuel hp da db => crossMergeH_frame fuel hp da db⟩

/-- Witness for C2 at concrete mappings: recursion on the shared nested
key, wholesale override on a scalar key, and preservation of a base-only
key, all computed on explicit inputs. -/
theorem claim_C2_witness :
    dictGet
        (cross_merge_dicts
          [("x", .vDict [("p", .vInt 1), ("q", .vInt 2)]), ("only_a", .vInt 7)]
          [("x", .vDict [("q", .vInt 3)]), ("s", .vStr "v")]) "x" =
      some (.vDict (cross_merge_dicts [("p", .vInt 1), ("q", .vInt 2)] [("q", .vInt 3)])) ∧
    dictGet
        (cross_merge_dicts
          [("x", .vDict [("p", .vInt 1), ("q", .vInt 2)]), ("only_a", .vInt 7)]
          [("x", .vDict [("q", .vInt 3)]), ("s", .vStr "v")]) "s" = some (.vStr "v") ∧
    dictGet
        (cross_merge_dicts
          [("x", .vDict [("p", .vInt 1), ("q", .vInt 2)]), ("only_a", .vInt 7)]
          [("x", .vDict [("q", .vInt 3)]), ("s", .vStr "v")]) "only_a" = some (.vInt 7) :=
  ⟨(claim_C2_cross_merge_semantics
      [("x", .vDict [("p", .vInt 1), ("q", .vInt 2)]), ("only_a", .vInt 7)]
      [("x", .vDict [("q", .vInt 3)]), ("s", .vStr "v")]
      [("p", .vInt 1), ("q", .vInt 2)] [("q", .vInt 3)] "x" .vNone).1
      (by decide) rfl rfl,
   (claim_C2_cross_merge_semantics
      [("x", .vDict [("p", .vInt 1), ("q", .vInt 2)]), ("only_a", .vInt 7)]
      [("x", .vDict [("q", .vInt 3)]), ("s", .vStr "v")]
      [] [] "s" (.vStr "v")).2.1
      (by decide) rfl (by decide),
   (claim_C2_cross_merge_semantics
      [("x", .vDict [("p", .vInt 1), ("q", .vInt 2)]), ("only_a", .vInt 7)]
      [("x", .vDict [("q", .vInt 3)]), ("s", .vStr "v")]
      [] [] "only_a" .vNone).2.2.1
      (by decide)⟩

/-- C9: merging a well-formed mapping with itself is the identity, and a
key present in exactly one of the two mappings survives with its original
value. -/
theorem claim_C9_merge_idem_and_unique_keys (a b : DictT) (k : String) (v : Value) :
    (dictWF a = true → cross_merge_dicts a a = a) ∧
    (dictHasKey b k = false → dictGet (cross_merge_dicts a b) k = dictGet a k) ∧
    (dictHasKey a k = false → dictKeysUnique b = true → dictGet b k = some v →
      dictGet (cross_merge_dicts a b) k = some v) :=
  ⟨fun hwf => cross_merge_self a hwf,
   fun h => cross_merge_base_only a b k h,
   fun ha hb hgb =>
     cross_merge_override a b k v hb hgb
       (by rw [dictGet_none_of_not_hasKey a k ha]; exact bothDicts_none v)⟩

/-- Witness for C9 at concrete mappings: self-merge of a nested mapping is
the identity, and keys unique to either side survive. -/
theorem claim_C9_witness :
    cross_merge_dicts [("x", .vInt 1), ("y", .vDict [("z", .vInt 2)])]
        [("x", .vInt 1), ("y", .vDict [("z", .vInt 2)])] =
      [("x", .vInt 1), ("y", .vDict [("z", .vInt 2)])] ∧
    dictGet (cross_merge_dicts [("onlyA", .vInt 5)] [("onlyB", .vInt 6)]) "onlyA" =
      some (.vInt 5) ∧
    dictGet (cross_merge_dicts [("onlyA", .vInt 5)] [("onlyB", .vInt 6)]) "onlyB" =
      some (.vInt 6) :=
  ⟨(claim_C9_merge_idem_and_unique_keys
      [("x", .vInt 1), ("y", .vDict [("z", .vInt 2)])] [] "x" .vNone).1 (by decide),
   by
     have h := (claim_C9_merge_idem_and_unique_keys
       [("onlyA", .vInt 5)] [("onlyB", .vInt 6)] "onlyA" .vNone).2.1 (by decide)
     rw [h]
     rfl,
   (claim_C9_merge_idem_and_unique_keys
      [("onlyA", .vInt 5)] [("onlyB", .vInt 6)] "onlyB" (.vInt 6)).2.2
      (by decide) (by decide) rfl⟩

/-- Embedding of `qstd_config/utils.py::unify_name`: uppercase the string
and replace every non-alphanumeric (ASCII) character by an underscore. -/
def unify_name (s : String) : String :=
  String.mk (s.toList.map (fun c =>
    let cu := c.toUpper
    if cu.isAlphanum then cu else '_'))

/-- Python `'_'.join(parts)`. -/
def joinUnderscore (parts : List String) : String :=
  String.intercalate "_" parts

mutual
/-- Embedding of the Python type annotations the env compiler inspects:
`None`, an origin-less plain type, a pydantic model class (with its
declared fields), a `typing.Union[...]`, or another parameterized generic
such as `List[...]` (whose origin is not `Union`). -/
inductive PyType where
  | noneType
  | prim (nm : String)
  | model (nm : String) (fields : List PyField)
  | union (args : List PyType)
  | generic (origin : String) (args : List PyType)
/-- One pydantic `FieldInfo` as the env compiler reads it: a name, an
optional alias, the optional `json_schema_extra['env']` override, optional
title / default / description / examples, and the declared annotation. -/
inductive PyField where
  | mk (fname : String) (aliasNm : Option String) (envOverride : Option String)
      (ftitle : Option String) (defaultVal : Option Value)
      (descr : Option String) (exs : Option (List Value)) (ann : PyType)
end

def PyField.fname : PyField → String
  | .mk nm _ _ _ _ _ _ _ => nm

def PyField.aliasNm : PyField → Option String
  | .mk _ a _ _ _ _ _ _ => a

def PyField.envOverride : PyField → Option String
  | .mk _ _ e _ _ _ _ _ => e

def PyField.ftitle : PyField → Option String
  | .mk _ _ _ t _ _ _ _ => t

def PyField.defaultVal : PyField → Option Value
  | .mk _ _ _ _ d _ _ _ => d

def PyField.descr : PyField → Option String
  | .mk _ _ _ _ _ ds _ _ => ds

def PyField.exs : PyField → Option (List Value)
  | .mk _ _ _ _ _ _ e _ => e

def PyField.ann : PyField → PyType
  | .mk _ _ _ _ _ _ _ a => a

/-- Embedding of `qstd_config/utils.py::is_optional_type`: a `Union` with
exactly two members one of which is `NoneType`. -/
def is_optional_type : PyType → Bool
  | .union args =>
    args.length == 2 &&
      args.any (fun t => match t with | .noneType => true | _ => false)
  | _ => false

mutual
/-- Embedding of `qstd_config/utils.py::unwrap_types`: an origin-less
annotation is itself the single candidate; any parameterized annotation is
flattened recursively through its arguments. -/
def unwrap_types : PyType → List PyType
  | .noneType => [.noneType]
  | .prim nm => [.prim nm]
  | .model nm fields => [.model nm fields]
  | .union args => unwrapList args
  | .generic _o args => unwrapList args
/-- The `for arg in args: type_list.extend(unwrap_types(arg))` loop. -/
def unwrapList : List PyType → List PyType
  | [] => []
  | t :: ts => unwrap_types t ++ unwrapList ts
end

/-- Embedding of `qstd_config/utils.py::is_model_type`: only a pydantic
model class is a configuration model type. -/
def is_model_type : PyType → Bool
  | .model _ _ => true
  | _ => false

/-- Embedding of `qstd_config/env.py::EnvironmentField`. -/
structure EnvField where
  title : String
  name : String
  field_path : List String
  type : PyType
  default : Option Value
  descr : Option String
  examples : Option (List Value)

/-- Embedding of `qstd_config/env.py::_add_env`: the env name is the
explicit `json_schema_extra['env']` override when present, otherwise the
unified path segments joined by underscores. -/
def addEnv (f : PyField) (t : PyType) (current_env_name_path current_field_path : List String) :
    EnvField :=
  { title := (PyField.ftitle f).getD ((PyField.aliasNm f).getD (PyField.fname f)),
    name := (PyField.envOverride f).getD (joinUnderscore (current_env_name_path.map unify_name)),
    field_path := current_field_path,
    type := t,
    default := PyField.defaultVal f,
    descr := PyField.descr f,
    examples := PyField.exs f }

theorem unwrap_sizeOf_bounded : ∀ (n : Nat),
    (∀ t : PyType, sizeOf t ≤ n → ∀ u ∈ unwrap_types t, sizeOf u ≤ sizeOf t) ∧
    (∀ ts : List PyType, sizeOf ts ≤ n → ∀ u ∈ unwrapList ts, sizeOf u ≤ sizeOf ts) := by
  intro n
  induction n with
  | zero =>
    constructor
    · intro t ht
      cases t <;> simp at ht
    · intro ts hts
      cases ts with
      | nil => intro u hu; simp [unwrapList] at hu
      | cons t ts => simp at hts
  | succ n ih =>
    constructor
    · intro t ht u hu
      cases t with
      | noneType => rw [unwrap_types] at hu; simp at hu; simp [hu]
      | prim nm => rw [unwrap_types] at hu; simp at hu; simp [hu]
      | model nm fields => rw [unwrap_types] at hu; simp at hu; simp [hu]
      | union args =>
        rw [unwrap_types] at hu
        have hargs : sizeOf args ≤ n := by simp at ht; omega
        have := ih.2 args hargs u hu
        simp
        omega
      | generic o args =>
        rw [unwrap_types] at hu
        have hargs : sizeOf args ≤ n := by simp at ht; omega
        have := ih.2 args hargs u hu
        simp
        omega
    · intro ts hts u hu
      cases ts with
      | nil => rw [unwrapList] at hu; simp at hu
      | cons t rest =>
        rw [unwrapList] at hu
        rcases List.mem_append.1 hu with hu | hu
        · have h1 : sizeOf t ≤ n := by simp at hts; omega
          have := ih.1 t h1 u hu
          simp
          omega
        · have h1 : sizeOf rest ≤ n := by simp at hts; omega
          have := ih.2 rest h1 u hu
          simp
          omega

theorem unwrap_types_sizeOf (t u : PyType) (hu : u ∈ unwrap_types t) : sizeOf u ≤ sizeOf t :=
  (unwrap_sizeOf_bounded (sizeOf t)).1 t (Nat.le_refl _) u hu

theorem PyField.ann_sizeOf (f : PyField) : sizeOf (PyField.ann f) < sizeOf f := by
  cases f with
  | mk nm a e t d ds ex ann =>
    rw [PyField.ann]
    simp

/-- Embedding of `qstd_config/env.py::_fill_env_list`: walk the declared
fields in order; an optional annotation is emitted as a single leaf with
its full annotation; otherwise every unwrapped candidate type is either a
model (recurse into its fields at the extended path) or a leaf (emit one
entry carrying that candidate type). -/
def fillEnvList (fields : List PyField) (field_path env_name_path : List String) :
    List EnvField :=
  match fields with
  | [] => []
  | f :: rest =>
    let seg := (PyField.aliasNm f).getD (PyField.fname f)
    let cfp := field_path ++ [seg]
    let cep := env_name_path ++ [seg]
    (if is_optional_type (PyField.ann f) then [addEnv f (PyField.ann f) cep cfp]
     else
       (unwrap_types (PyField.ann f)).attach.flatMap
         (fun t =>
           match t with
           | ⟨.model _ mfields, hmem⟩ => fillEnvList mfields cfp cep
           | ⟨u, _⟩ => [addEnv f u cep cfp]))
    ++ fillEnvList rest field_path env_name_path
termination_by sizeOf fields
decreasing_by
  · have h1 := unwrap_types_sizeOf (PyField.ann f) _ hmem
    have h2 := PyField.ann_sizeOf f
    simp only [PyType.model.sizeOf_spec] at h1
    simp only [List.cons.sizeOf_spec]
    omega
  · simp only [List.cons.sizeOf_spec]
    omega

/-- The per-candidate-type action of `_fill_env_list`, as a standalone
function (definitionally what the inner loop does for one candidate). -/
def fillEnvType (f : PyField) (cfp cep : List String) (t : PyType) : List EnvField :=
  match t with
  | .model _ mfields => fillEnvList mfields cfp cep
  | u => [addEnv f u cep cfp]

theorem attach_flatMap_fst {α β : Type _} (l : List α) (h : α → List β) :
    (l.attach.flatMap (fun x => h x.1)) = l.flatMap h := by
  induction l with
  | nil => rfl
  | cons a l ih =>
    rw [List.attach_cons]
    simp only [List.flatMap_cons, List.flatMap_map]
    rw [ih]

theorem fillEnvList_nil (fp ep : List String) : fillEnvList [] fp ep = [] := by
  rw [fillEnvList]

theorem fillEnvList_cons (f : PyField) (rest : List PyField) (fp ep : List String) :
    fillEnvList (f :: rest) fp ep =
      (if is_optional_type (PyField.ann f)
       then [addEnv f (PyField.ann f) (ep ++ [(PyField.aliasNm f).getD (PyField.fname f)])
              (fp ++ [(PyField.aliasNm f).getD (PyField.fname f)])]
       else (unwrap_types (PyField.ann f)).flatMap
         (fillEnvType f (fp ++ [(PyField.aliasNm f).getD (PyField.fname f)])
            (ep ++ [(PyField.aliasNm f).getD (PyField.fname f)])))
      ++ fillEnvList rest fp ep := by
  rw [fillEnvList]
  by_cases ho : is_optional_type (PyField.ann f)
  · simp only [ho, if_true]
  · simp only [ho, if_false]
    congr 1
    refine (congrArg (List.flatMap (unwrap_types (PyField.ann f)).attach)
      (funext fun t => ?_)).trans (attach_flatMap_fst _ _)
    obtain ⟨u, hu⟩ := t
    cases u <;> rfl

/-- Embedding of `qstd_config/env.py::create_env_list_from_cls`: the walk
starts at the empty field path, with the project name (when given) seeding
the env-name path. -/
def create_env_list_from_cls (fields : List PyField) (project_name : Option String) :
    List EnvField :=
  fillEnvList fields []
    (match project_name with
     | some p => [p]
     | none => [])

/-- When every candidate type in a list is a non-model type, the inner
`for _type in types` loop of `_fill_env_list` emits exactly one entry per
candidate, in order, each carrying that candidate type. -/
theorem flatMap_fillEnvType_nonmodel (f : PyField) (cfp cep : List String)
    (l : List PyType) (h : ∀ u ∈ l, is_model_type u = false) :
    l.flatMap (fillEnvType f cfp cep) = l.map (fun u => addEnv f u cep cfp) := by
  induction l with
  | nil => rfl
  | cons t ts ih =>
    simp only [List.flatMap_cons, List.map_cons]
    rw [ih (fun u hu => h u (List.mem_cons_of_mem _ hu))]
    have ht := h t (List.mem_cons_self _ _)
    cases t with
    | model nm fields => simp [is_model_type] at ht
    | noneType => rfl
    | prim nm => rfl
    | union args => rfl
    | generic o args => rfl

/-- C6 counterexample: for the field `x : Union[int, str]` (a union of two
non-configuration types) the compiler emits TWO entries, one per union
branch, each carrying the branch type — not a single entry carrying the
full union type as the claim states. -/
theorem claim_C6_counterexample :
    (create_env_list_from_cls
        [PyField.mk "x" none none none none none none (.union [.prim "int", .prim "str"])]
        none).length = 2 ∧
    ((create_env_list_from_cls
        [PyField.mk "x" none none none none none none (.union [.prim "int", .prim "str"])]
        none).map EnvField.type) = [.prim "int", .prim "str"] := by
  have h : create_env_list_from_cls
      [PyField.mk "x" none none none none none none (.union [.prim "int", .prim "str"])]
      none =
      [addEnv (PyField.mk "x" none none none none none none
          (.union [.prim "int", .prim "str"])) (.prim "int") ["x"] ["x"],
       addEnv (PyField.mk "x" none none none none none none
          (.union [.prim "int", .prim "str"])) (.prim "str") ["x"] ["x"]] := by
    rw [create_env_list_from_cls, fillEnvList_cons, fillEnvList_nil]
    simp [fillEnvType, unwrap_types, unwrapList, is_optional_type, PyField.ann,
      PyField.aliasNm, PyField.fname]
  rw [h]
  constructor <;> rfl

/-- C6 (amended): a non-Optional field annotation never yields a single
entry carrying the field's full declared (possibly unioned) type; instead
the annotation is recursively unwrapped into its origin-less leaf types (a
parameterized branch such as `Dict[str, int]` is itself flattened into its
type arguments, so a union branch need not contribute exactly one leaf),
and (1) when every unwrapped leaf is a non-configuration type the compiler
emits exactly one entry per unwrapped leaf, in order, each carrying that
leaf's type, so the entry types are exactly the unwrapped leaves; (2) every
non-configuration unwrapped leaf contributes its container-level entry;
(3) every sub-field entry of every unwrapped nested-configuration leaf is
also emitted. -/
theorem claim_C6_one_entry_per_unwrapped_leaf (f : PyField) (pn : Option String)
    (hopt : is_optional_type (PyField.ann f) = false) :
    ((∀ u ∈ unwrap_types (PyField.ann f), is_model_type u = false) →
      create_env_list_from_cls [f] pn =
        (unwrap_types (PyField.ann f)).map (fun u =>
          addEnv f u
            ((match pn with | some q => [q] | none => []) ++
              [(PyField.aliasNm f).getD (PyField.fname f)])
            [(PyField.aliasNm f).getD (PyField.fname f)]) ∧
      (create_env_list_from_cls [f] pn).map EnvField.type =
        unwrap_types (PyField.ann f)) ∧
    (∀ u ∈ unwrap_types (PyField.ann f), is_model_type u = false →
      addEnv f u
          ((match pn with | some q => [q] | none => []) ++
            [(PyField.aliasNm f).getD (PyField.fname f)])
          [(PyField.aliasNm f).getD (PyField.fname f)] ∈
        create_env_list_from_cls [f] pn) ∧
    (∀ mnm mfields, PyType.model mnm mfields ∈ unwrap_types (PyField.ann f) →
      ∀ e ∈ fillEnvList mfields
          [(PyField.aliasNm f).getD (PyField.fname f)]
          ((match pn with | some q => [q] | none => []) ++
            [(PyField.aliasNm f).getD (PyField.fname f)]),
        e ∈ create_env_list_from_cls [f] pn) := by
  have hbase : create_env_list_from_cls [f] pn =
      (unwrap_types (PyField.ann f)).flatMap
        (fillEnvType f
          [(PyField.aliasNm f).getD (PyField.fname f)]
          ((match pn with | some q => [q] | none => []) ++
            [(PyField.aliasNm f).getD (PyField.fname f)])) := by
    rw [create_env_list_from_cls.eq_def, fillEnvList_cons, fillEnvList_nil, hopt]
    simp only [Bool.false_eq_true, if_false, List.append_nil, List.nil_append]
  refine ⟨?_, ?_, ?_⟩
  · intro hnm
    have hmain := hbase.trans (flatMap_fillEnvType_nonmodel f _ _ _ hnm)
    refine ⟨hmain, ?_⟩
    rw [hmain, List.map_map]
    have hcomp : ∀ (cep cfp : List String),
        (EnvField.type ∘ fun u => addEnv f u cep cfp) = id :=
      fun cep cfp => funext fun u => rfl
    rw [hcomp, List.map_id]
  · intro u hu hum
    rw [hbase]
    refine List.mem_flatMap.2 ⟨u, hu, ?_⟩
    cases u with
    | model nm fields => simp [is_model_type] at hum
    | noneType => simp [fillEnvType]
    | prim nm => simp [fillEnvType]
    | union args => simp [fillEnvType]
    | generic o args => simp [fillEnvType]
  · intro mnm mfields hmem e he
    rw [hbase]
    exact List.mem_flatMap.2 ⟨.model mnm mfields, hmem, by simpa [fillEnvType] using he⟩

/-- C6 witness: `x : Union[bool, Dict[str, int]]` is not Optional and all
its unwrapped leaves are non-configuration types, so the compiler emits
THREE entries carrying `bool`, `str` and `int` (the `Dict[str, int]`
branch is flattened into its type arguments); and for
`nested : Union[int, Nested]` both the container-level `int` entry and the
nested sub-field entry for `value` are emitted. -/
theorem claim_C6_witness :
    is_optional_type (PyField.ann (PyField.mk "x" none none none none none none
        (.union [.prim "bool", .generic "Dict" [.prim "str", .prim "int"]]))) = false ∧
    (create_env_list_from_cls
        [PyField.mk "x" none none none none none none
          (.union [.prim "bool", .generic "Dict" [.prim "str", .prim "int"]])]
        none).map EnvField.type = [.prim "bool", .prim "str", .prim "int"] ∧
    addEnv
        (PyField.mk "nested" none none none none none none
          (.union [.prim "int",
            .model "Nested" [PyField.mk "value" none none none none none none (.prim "int")]]))
        (.prim "int") ["nested"] ["nested"] ∈
      create_env_list_from_cls
        [PyField.mk "nested" none none none none none none
          (.union [.prim "int",
            .model "Nested" [PyField.mk "value" none none none none none none (.prim "int")]])]
        none ∧
    addEnv (PyField.mk "value" none none none none none none (.prim "int"))
        (.prim "int") ["nested", "value"] ["nested", "value"] ∈
      create_env_list_from_cls
        [PyField.mk "nested" none none none none none none
          (.union [.prim "int",
            .model "Nested" [PyField.mk "value" none none none none none none (.prim "int")]])]
        none := by
  have h1 := claim_C6_one_entry_per_unwrapped_leaf
    (PyField.mk "x" none none none none none none
      (.union [.prim "bool", .generic "Dict" [.prim "str", .prim "int"]])) none rfl
  have h2 := claim_C6_one_entry_per_unwrapped_leaf
    (PyField.mk "nested" none none none none none none
      (.union [.prim "int",
        .model "Nested" [PyField.mk "value" none none none none none none (.prim "int")]]))
    none rfl
  refine ⟨rfl, ?_, ?_, ?_⟩
  · have h := (h1.1 (by
      intro u hu
      simp [unwrap_types, unwrapList, PyField.ann] at hu
      rcases hu with h | h | h <;> subst h <;> rfl)).2
    rw [h]
    simp [PyField.ann, unwrap_types, unwrapList]
  · have h := h2.2.1 (.prim "int")
      (by simp [PyField.ann, unwrap_types, unwrapList]) rfl
    simpa [PyField.aliasNm, PyField.fname] using h
  · have h := h2.2.2 "Nested"
      [PyField.mk "value" none none none none none none (.prim "int")]
      (by simp [PyField.ann, unwrap_types, unwrapList])
      (addEnv (PyField.mk "value" none none none none none none (.prim "int"))
        (.prim "int") ["nested", "value"] ["nested", "value"])
      (by simp [fillEnvList_cons, fillEnvList_nil, fillEnvType, unwrap_types, unwrapList,
        is_optional_type, PyField.ann, PyField.aliasNm, PyField.fname])
    exact h

/-- Python exception categories raised by the embedded code. -/
inductive PyErr where
  | typeError (msg : String)
  | validationError (msg : String)
  | runtimeError (msg : String)

/-- Embedding of the path-walking loop of
`qstd_config/env.py::assign_env_to_dict` (`last_part_index = len - 1`):
at the last key the raw string is written; at an earlier key a missing
intermediate dict is created and the walk descends.  Descending into a
non-dict value makes the subsequent subscript/membership operation raise,
embedded as a `TypeError`. -/
def setPathEnv : DictT → List String → String → Except PyErr DictT
  | d, [], _ => .ok d
  | d, [k], v => .ok (dictSet d k (.vStr v))
  | d, k :: k2 :: rest, v =>
    if dictHasKey d k then
      match dictGet d k with
      | some (.vDict sub) =>
        match setPathEnv sub (k2 :: rest) v with
        | .ok sub2 => .ok (dictSet d k (.vDict sub2))
        | .error e => .error e
      | _ => .error (.typeError "descending into a non-dict value")
    else
      match setPathEnv [] (k2 :: rest) v with
      | .ok sub2 => .ok (dictSet d k (.vDict sub2))
      | .error e => .error e

/-- The `for env in env_list` loop of `qstd_config/env.py::assign_env_to_dict`. -/
def assignEnvLoop (environ : String → Option String) :
    DictT → List String → List EnvField → Except PyErr (DictT × List String)
  | config, used, [] => .ok (config, used)
  | config, used, e :: rest =>
    match environ e.name with
    | none => assignEnvLoop environ config used rest
    | some v =>
      match setPathEnv config e.field_path v with
      | .ok config2 => assignEnvLoop environ config2 (used ++ [e.name]) rest
      | .error err => .error err

/-- Embedding of `qstd_config/env.py::assign_env_to_dict`: reads each
compiled field's environment variable and, when present, writes the raw
string at the field's dotted path, recording the name as used. -/
def assign_env_to_dict (config : DictT) (env_list : List EnvField)
    (environ : String → Option String) : Except PyErr (DictT × List String) :=
  assignEnvLoop environ config [] env_list

/-- Embedding of `qstd_config/config.py::ConfigProperty`: the env name is
derived from the unified path parts; there is no explicit-override
mechanism in this generation of the code. -/
structure ConfigProperty where
  key : String
  env : String
  path : List String

def mkConfigProperty (key : String) (parts : List String) : ConfigProperty :=
  { key := key, env := joinUnderscore (parts.map unify_name), path := parts }

/-- Embedding of the path loop of
`qstd_config/manager.py::ConfigManager.assign_env_to_dict` (lines
150-158).  The source sets `last_index = len(config_property.path)` while
`enumerate` yields indices `0 .. len-1`, so the `index == last_index`
branch that would write the value never runs: the loop only creates
missing dicts (including at the leaf key) and descends.  Descending into a
scalar at the last key ends the loop without writing; descending earlier
makes the next membership test raise, embedded as a `TypeError`. -/
def mgrWalkPath : DictT → List String → Except PyErr DictT
  | d, [] => .ok d
  | d, k :: rest =>
    if dictHasKey d k then
      match dictGet d k with
      | some (.vDict sub) =>
        match mgrWalkPath sub rest with
        | .ok sub2 => .ok (dictSet d k (.vDict sub2))
        | .error e => .error e
      | _ =>
        match rest with
        | [] => .ok d
        | _ :: _ => .error (.typeError "membership test on a non-dict value")
    else
      match mgrWalkPath [] rest with
      | .ok sub2 => .ok (dictSet d k (.vDict sub2))
      | .error e => .error e

/-- The `for config_property in ...` loop of
`ConfigManager.assign_env_to_dict`: the fetched value is bound but never
stored (see `mgrWalkPath`); the unprefixed property env name is recorded
as used whenever the (possibly prefixed) variable is present. -/
def mgrAssignLoop (environ : String → Option String) (projectName : Option String) :
    DictT → List String → List ConfigProperty → Except PyErr (DictT × List String)
  | config, used, [] => .ok (config, used)
  | config, used, p :: rest =>
    let envName :=
      match projectName with
      | some pr => joinUnderscore [pr, p.env]
      | none => p.env
    match environ envName with
    | none => mgrAssignLoop environ projectName config used rest
    | some _v =>
      match mgrWalkPath config p.path with
      | .ok config2 => mgrAssignLoop environ projectName config2 (used ++ [p.env]) rest
      | .error e => .error e

/-- Embedding of `qstd_config/manager.py::ConfigManager.assign_env_to_dict`. -/
def mgr_assign_env_to_dict (props : List ConfigProperty) (projectName : Option String)
    (environ : String → Option String) (config : DictT) :
    Except PyErr (DictT × List String) :=
  mgrAssignLoop environ (projectName.map unify_name) config [] props

/-- C1 (evaluated at the claim's scenario): the `env.py` loader writes the
raw string `"true"` at path `["debug"]` (via the explicit override name
`DEBUG_OVERRIDE`) and records the variable as used — as the claim states;
but the manager's own `assign_env_to_dict`, the one `load_configuration`
actually calls, never writes the value: with `DEBUG=true` present it
leaves an empty dict at the `debug` key (while still recording the
variable as used), so the claim fails on the code path that runs. -/
theorem claim_C1_env_assignment :
    assign_env_to_dict [("nested", .vDict [("flag", .vBool true)])]
        (create_env_list_from_cls
          [PyField.mk "debug" none (some "DEBUG_OVERRIDE") none (some (.vBool false))
            none none (.prim "bool"),
           PyField.mk "nested" none none none none none none
            (.model "NestedConfig"
              [PyField.mk "flag" none none none (some (.vBool false)) none none
                (.prim "bool")])]
          none)
        (fun n => if n = "DEBUG_OVERRIDE" then some "true" else none) =
      .ok ([("nested", .vDict [("flag", .vBool true)]), ("debug", .vStr "true")],
        ["DEBUG_OVERRIDE"]) ∧
    mgr_assign_env_to_dict
        [mkConfigProperty "debug" ["debug"], mkConfigProperty "flag" ["nested", "flag"]]
        none
        (fun n => if n = "DEBUG" then some "true" else none)
        [("nested", .vDict [("flag", .vBool true)])] =
      .ok ([("nested", .vDict [("flag", .vBool true)]), ("debug", .vDict [])],
        ["DEBUG"]) := by
  constructor
  · have hlist : create_env_list_from_cls
        [PyField.mk "debug" none (some "DEBUG_OVERRIDE") none (some (.vBool false))
          none none (.prim "bool"),
         PyField.mk "nested" none none none none none none
          (.model "NestedConfig"
            [PyField.mk "flag" none none none (some (.vBool false)) none none
              (.prim "bool")])]
        none =
        [addEnv (PyField.mk "debug" none (some "DEBUG_OVERRIDE") none (some (.vBool false))
            none none (.prim "bool")) (.prim "bool") ["debug"] ["debug"],
         addEnv (PyField.mk "flag" none none none (some (.vBool false)) none none
            (.prim "bool")) (.prim "bool") ["nested", "flag"] ["nested", "flag"]] := by
      rw [create_env_list_from_cls]
      simp [fillEnvList_cons, fillEnvList_nil, fillEnvType, unwrap_types, unwrapList,
        is_optional_type, PyField.ann, PyField.aliasNm, PyField.fname]
    rw [hlist]
    rfl
  · rfl

/-- Python `path.startswith('/')`, stated on the character list so that it
evaluates by kernel reduction. -/
def startsWithSlash (s : String) : Bool :=
  match s.toList with
  | [] => false
  | c :: _ => c == '/'

/-- Embedding of `qstd_config/manager.py::ConfigManager.abs_config_path`:
a path not starting with `/` is resolved against the default config
directory; `abspathJoin` stands for the external
`os.path.abspath(os.path.join(default_config_dir, path))`. -/
def abs_config_path (abspathJoin : String → String → String) (defaultDir : String)
    (path : String) : String :=
  if startsWithSlash path then path else abspathJoin defaultDir path

/-- Embedding of the path-list construction in
`qstd_config/manager.py::ConfigManager.__init__` (lines 63-71):
`self.config_paths = config_paths or []` aliases the caller's list when it
is non-empty, then `if config_paths:` extends that same list with the
absolutized copies, then the env- and argv-derived paths are appended. -/
def initConfigPaths (abspathJoin : String → String → String) (defaultDir : String)
    (configPaths : List String) (parseEnv parseArgs : Bool)
    (envRaw argRaw : List String) : List String :=
  (configPaths ++
    (if configPaths.isEmpty then []
     else configPaths.map (abs_config_path abspathJoin defaultDir))) ++
  (if parseEnv then envRaw.map (abs_config_path abspathJoin defaultDir) else []) ++
  (if parseArgs then argRaw.map (abs_config_path abspathJoin defaultDir) else [])

/-- The caller's `config_paths` list object after `ConfigManager.__init__`:
when non-empty it is the same object the manager extended in place, so the
caller observes the full resolved list. -/
def callerPathsAfterInit (abspathJoin : String → String → String) (defaultDir : String)
    (configPaths : List String) (parseEnv parseArgs : Bool)
    (envRaw argRaw : List String) : List String :=
  if configPaths.isEmpty then configPaths
  else initConfigPaths abspathJoin defaultDir configPaths parseEnv parseArgs envRaw argRaw

/-- C10: with a non-empty explicit `config_paths` list, the manager's
resolved path list contains every explicit path twice — verbatim at index
`i` and absolutized at index `len + i` — followed by the env- and
argv-derived paths (so every load opens and merges each explicit file
twice), and the caller's list object is mutated in place to that full
resolved list. -/
theorem claim_C10_duplicate_paths (aj : String → String → String) (dir : String)
    (paths envRaw argRaw : List String) (h : paths ≠ []) :
    initConfigPaths aj dir paths true true envRaw argRaw =
      paths ++ paths.map (abs_config_path aj dir) ++
        envRaw.map (abs_config_path aj dir) ++ argRaw.map (abs_config_path aj dir) ∧
    (∀ i, i < paths.length →
      (initConfigPaths aj dir paths true true envRaw argRaw)[i]? = paths[i]? ∧
      (initConfigPaths aj dir paths true true envRaw argRaw)[paths.length + i]? =
        some (abs_config_path aj dir (paths.getD i ""))) ∧
    callerPathsAfterInit aj dir paths true true envRaw argRaw =
      initConfigPaths aj dir paths true true envRaw argRaw ∧
    callerPathsAfterInit aj dir paths true true envRaw argRaw ≠ paths := by
  have hempty : paths.isEmpty = false := by
    cases paths with
    | nil => exact absurd rfl h
    | cons p ps => rfl
  have heq : initConfigPaths aj dir paths true true envRaw argRaw =
      paths ++ paths.map (abs_config_path aj dir) ++
        envRaw.map (abs_config_path aj dir) ++ argRaw.map (abs_config_path aj dir) := by
    rw [initConfigPaths, hempty]
    simp [List.append_assoc]
  refine ⟨heq, ?_, ?_, ?_⟩
  · intro i hi
    rw [heq]
    constructor
    · rw [List.append_assoc, List.append_assoc, List.getElem?_append_left hi]
    · rw [List.append_assoc, List.append_assoc,
        List.getElem?_append_right (by omega : paths.length ≤ paths.length + i)]
      have hi2 : paths.length + i - paths.length = i := by omega
      rw [hi2, List.getElem?_append_left (by simpa using hi),
        List.getElem?_map]
      have : paths[i]? = some (paths.getD i "") := by
        rw [List.getD_eq_getElem?_getD, List.getElem?_eq_getElem hi]
        rfl
      rw [this]
      rfl
  · rw [callerPathsAfterInit, hempty]
    simp
  · rw [callerPathsAfterInit, hempty]
    simp only [Bool.false_eq_true, if_false]
    rw [heq]
    intro hcontra
    have hlen := congrArg List.length hcontra
    simp only [List.length_append, List.length_map] at hlen
    have hp : 0 < paths.length := by
      cases paths with
      | nil => exact absurd rfl h
      | cons q qs => simp
    omega

/-- Witness for C10 at a concrete manager construction: one explicit
relative path, one env path, no argv paths. -/
theorem claim_C10_witness :
    initConfigPaths (fun d p => d ++ "/" ++ p) "/etc/proj" ["a.yaml"] true true
        ["e.yaml"] [] =
      ["a.yaml", "/etc/proj/a.yaml", "/etc/proj/e.yaml"] ∧
    callerPathsAfterInit (fun d p => d ++ "/" ++ p) "/etc/proj" ["a.yaml"] true true
        ["e.yaml"] [] =
      initConfigPaths (fun d p => d ++ "/" ++ p) "/etc/proj" ["a.yaml"] true true
        ["e.yaml"] [] := by
  have hmain := claim_C10_duplicate_paths (fun d p => d ++ "/" ++ p) "/etc/proj"
    ["a.yaml"] ["e.yaml"] [] (by intro hcontra; cases hcontra)
  constructor
  · rw [hmain.1]
    rfl
  · exact hmain.2.2.1

mutual
/-- A validated pydantic model value (the output of the external
validator).  It carries the names of the fields its paired configuration
class lists in `__qstd_nested_configuration_fields__`, since source
classes and their generated pydantic models are one-to-one. -/
inductive PModel where
  | mk (nestedFields : List String) (fields : List (String × PVal))
/-- A field value of a validated model. -/
inductive PVal where
  | prim (v : Value)
  | model (m : PModel)
  | plist (xs : List PVal)
  | pdict (entries : List (String × PVal))
end

def PModel.nestedFields : PModel → List String
  | .mk nf _ => nf

def PModel.fields : PModel → List (String × PVal)
  | .mk _ fs => fs

mutual
/-- Embedding of pydantic `model_dump()`: models collapse to plain dicts. -/
def modelDump : PModel → Value
  | .mk _ fields => .vDict (dumpFields fields)
def dumpFields : List (String × PVal) → List (String × Value)
  | [] => []
  | (k, v) :: rest => (k, dumpVal v) :: dumpFields rest
def dumpVal : PVal → Value
  | .prim v => v
  | .model m => modelDump m
  | .plist xs => .vList (dumpList xs)
  | .pdict es => .vDict (dumpFields es)
def dumpList : List PVal → List Value
  | [] => []
  | v :: rest => dumpVal v :: dumpList rest
end

def isVNone : Value → Bool
  | .vNone => true
  | _ => false

/-- A key of a shared-memory field access path (`str` or `int`). -/
inductive PathKey where
  | s (k : String)
  | i (n : Nat)

mutual
/-- An instance of a configuration class.  `oid` models Python object
identity (allocation order), `accessPath` is `_field_access_path` for
multiprocessing configs (empty for in-memory ones), `attrs` the instance
attributes. -/
inductive CfgObj where
  | mk (oid : Nat) (accessPath : List PathKey) (attrs : List (String × AVal))
/-- The value of one instance attribute: plain Python data, a nested
configuration object, or a container of such. -/
inductive AVal where
  | plain (v : Value)
  | obj (o : CfgObj)
  | alist (xs : List AVal)
  | adict (entries : List (String × AVal))
end

def CfgObj.oid : CfgObj → Nat
  | .mk i _ _ => i

def CfgObj.accessPath : CfgObj → List PathKey
  | .mk _ p _ => p

def CfgObj.attrs : CfgObj → List (String × AVal)
  | .mk _ _ a => a

def attrGet (o : CfgObj) (k : String) : Option AVal :=
  (CfgObj.attrs o).lookup k

def avalSet (es : List (String × AVal)) (k : String) (v : AVal) : List (String × AVal) :=
  match es with
  | [] => [(k, v)]
  | (k1, v1) :: rest => if k1 == k then (k1, v) :: rest else (k1, v1) :: avalSet rest k v

def pfieldGet (fields : List (String × PVal)) (k : String) : Option PVal :=
  fields.lookup k

mutual
/-- Embedding of `InMemoryConfig._mapping_child_value`: models become
fresh configuration objects (fresh `oid` drawn from the counter `n`),
containers are mapped elementwise, everything else is kept as-is. -/
def imMapChild (n : Nat) : PVal → AVal × Nat
  | .prim v => (.plain v, n)
  | .model m => let r := imCreate n m; (.obj r.1, r.2)
  | .plist xs => let r := imMapList n xs; (.alist r.1, r.2)
  | .pdict es => let r := imMapDict n es; (.adict r.1, r.2)
def imMapList (n : Nat) : List PVal → List AVal × Nat
  | [] => ([], n)
  | v :: rest =>
    let r := imMapChild n v
    let r2 := imMapList r.2 rest
    (r.1 :: r2.1, r2.2)
def imMapDict (n : Nat) : List (String × PVal) → List (String × AVal) × Nat
  | [] => ([], n)
  | (k, v) :: rest =>
    let r := imMapChild n v
    let r2 := imMapDict r.2 rest
    ((k, r.1) :: r2.1, r2.2)
/-- Embedding of `InMemoryConfig.__init__`: the attributes are the
`model_dump` entries, with each non-`None` nested configuration field
replaced by the mapped child object. -/
def imCreate (n : Nat) (m : PModel) : CfgObj × Nat :=
  match m with
  | .mk nested fields =>
    let r := imCreateAttrs n nested fields
    (.mk r.2 [] r.1, r.2 + 1)
def imCreateAttrs (n : Nat) (nested : List String) :
    List (String × PVal) → List (String × AVal) × Nat
  | [] => ([], n)
  | (k, pv) :: rest =>
    let r :=
      if nested.contains k && !(isVNone (dumpVal pv)) then imMapChild n pv
      else ((.plain (dumpVal pv) : AVal), n)
    let r2 := imCreateAttrs r.2 nested rest
    ((k, r.1) :: r2.1, r2.2)
end

/-- Embedding of the nested-field loop of
`InMemoryConfig.__update_configuration__`: when the current attribute is a
configuration object and the new value is a model, the source updates the
old object in place but leaves `valid_dict[name]` holding the raw
`model_dump` mapping; in every other shape where the new value is a model,
`valid_dict[name]` is replaced by a freshly mapped child object. -/
def imUpdateNested (self : CfgObj) (fields : List (String × PVal)) :
    Nat → List String → List (String × AVal) → List (String × AVal) × Nat
  | n, [], vd => (vd, n)
  | n, name :: rest, vd =>
    match attrGet self name, pfieldGet fields name with
    | some (.obj _), some (.model _) =>
      imUpdateNested self fields n rest vd
    | _, some (.model mm) =>
      let r := imMapChild n (.model mm)
      imUpdateNested self fields r.2 rest (avalSet vd name r.1)
    | _, _ => imUpdateNested self fields n rest vd

/-- Embedding of `InMemoryConfig.__update_configuration__`: after the
nested-field loop, `for attr, value in valid_dict.items(): setattr(...)`
stores every `valid_dict` entry over the instance attributes — including
the raw dump mapping for a nested field that was just recursively updated
in place, which therefore no longer hangs off `self`. -/
def imUpdate (n : Nat) (self : CfgObj) (m : PModel) : CfgObj × Nat :=
  match m with
  | .mk nested fields =>
    let vd0 := (dumpFields fields).map (fun e => (e.1, AVal.plain e.2))
    let r := imUpdateNested self fields n nested vd0
    (.mk (CfgObj.oid self) (CfgObj.accessPath self)
      (r.1.foldl (fun acc e => avalSet acc e.1 e.2) (CfgObj.attrs self)), r.2)

mutual
/-- Embedding of `MultiprocessingConfig._mapping_child_value`: models
become fresh subclass configuration objects carrying the extended access
path; list/dict containers extend the path with the index/key. -/
def mpMapChild (n : Nat) (ap : List PathKey) : PVal → AVal × Nat
  | .prim v => (.plain v, n)
  | .model m => let r := mpCreateSub n ap m; (.obj r.1, r.2)
  | .plist xs => let r := mpMapList n ap 0 xs; (.alist r.1, r.2)
  | .pdict es => let r := mpMapDict n ap es; (.adict r.1, r.2)
def mpMapList (n : Nat) (ap : List PathKey) (idx : Nat) :
    List PVal → List AVal × Nat
  | [] => ([], n)
  | v :: rest =>
    let r := mpMapChild n (ap ++ [.i idx]) v
    let r2 := mpMapList r.2 ap (idx + 1) rest
    (r.1 :: r2.1, r2.2)
def mpMapDict (n : Nat) (ap : List PathKey) :
    List (String × PVal) → List (String × AVal) × Nat
  | [] => ([], n)
  | (k, v) :: rest =>
    let r := mpMapChild n (ap ++ [.s k]) v
    let r2 := mpMapDict r.2 ap rest
    ((k, r.1) :: r2.1, r2.2)
/-- Embedding of `MultiprocessingConfig.__init__` with `is_subclass=True`
(the shared-dict write is skipped): only the nested configuration fields
become instance attributes; other fields are served from the shared dict
through `__getattr__`. -/
def mpCreateSub (n : Nat) (ap : List PathKey) (m : PModel) : CfgObj × Nat :=
  match m with
  | .mk nested fields =>
    let r := mpCreateAttrs n ap nested fields
    (.mk r.2 ap r.1, r.2 + 1)
/-- The `for name in self.__qstd_nested_configuration_fields__` loop of
`MultiprocessingConfig.__init__`.  The source iterates the (unordered)
frozenset of nested names and reads each field with `getattr`; this
embedding iterates the model's fields and keeps the nested ones, touching
exactly the same name/value pairs once each. -/
def mpCreateAttrs (n : Nat) (ap : List PathKey) (nested : List String) :
    List (String × PVal) → List (String × AVal) × Nat
  | [] => ([], n)
  | (k, pv) :: rest =>
    if nested.contains k then
      let r := mpMapChild n (ap ++ [.s k]) pv
      let r2 := mpCreateAttrs r.2 ap nested rest
      ((k, r.1) :: r2.1, r2.2)
    else mpCreateAttrs n ap nested rest
end

mutual
/-- Embedding of `MultiprocessingConfig.__update_configuration__` on one
configuration object (the shared-dict write of the root is handled by
`mpUpdateRoot`): a nested field whose current attribute is a configuration
object and whose new validated value is a model is updated recursively in
place — the attribute keeps the very same object; any other nested field
is re-mapped to a fresh child value. -/
def mpUpdateObj (n : Nat) (self : CfgObj) (m : PModel) : CfgObj × Nat :=
  match m with
  | .mk nested fields =>
    let r := mpUpdateNested self nested n fields (CfgObj.attrs self)
    (.mk (CfgObj.oid self) (CfgObj.accessPath self) r.1, r.2)
/-- The nested-field loop of
`MultiprocessingConfig.__update_configuration__`.  As with
`mpCreateAttrs`, the source iterates the frozenset of nested names and
reads each field with `getattr`; this embedding iterates the model's
fields and acts on the nested ones, the same name/value pairs once each. -/
def mpUpdateNested (self : CfgObj) (nested : List String) :
    Nat → List (String × PVal) → List (String × AVal) → List (String × AVal) × Nat
  | n, [], attrs => (attrs, n)
  | n, (name, pv) :: rest, attrs =>
    if nested.contains name then
      match attrGet self name, pv with
      | some (.obj o), .model mm =>
        let r := mpUpdateObj n o mm
        mpUpdateNested self nested r.2 rest (avalSet attrs name (.obj r.1))
      | _, _ =>
        let r := mpMapChild n (CfgObj.accessPath self) pv
        mpUpdateNested self nested r.2 rest (avalSet attrs name r.1)
    else mpUpdateNested self nested n rest attrs
end

/-- Python `dict.update(other)`: shallow top-level assignment of every
entry of `other` into the shared dict. -/
def sharedUpdate (d : DictT) (v : Value) : DictT :=
  match v with
  | .vDict es => es.foldl (fun acc e => dictSet acc e.1 e.2) d
  | _ => d

/-- Embedding of `MultiprocessingConfig.__init__` at the root
(`is_subclass=False`): the shared dict receives `model_dump()` and the
nested fields are mapped as subclass objects. -/
def mpCreateRoot (n : Nat) (shared : DictT) (m : PModel) :
    (CfgObj × DictT) × Nat :=
  let shared2 := sharedUpdate shared (modelDump m)
  let r := mpCreateSub n [] m
  ((r.1, shared2), r.2)

/-- Embedding of `MultiprocessingConfig.__update_configuration__` at the
root: the shared dict receives the new `model_dump()`, then the object
tree is updated. -/
def mpUpdateRoot (n : Nat) (shared : DictT) (self : CfgObj) (m : PModel) :
    (CfgObj × DictT) × Nat :=
  let shared2 := sharedUpdate shared (modelDump m)
  let r := mpUpdateObj n self m
  ((r.1, shared2), r.2)

/-- C7 (evaluated at a failing input): for config type
`{debug: bool, nested: {flag: bool}}`, reloading patches differently in
the two backends.  `InMemoryConfig.__update_configuration__` recursively
updates the old nested object but then its final `setattr` loop stores the
raw `model_dump` mapping over the `nested` attribute, so the field no
longer holds the configuration object at all — the claim fails there.
`MultiprocessingConfig.__update_configuration__` updates the nested object
in place and the field keeps the very same object (same identity). -/
theorem claim_C7_nested_identity :
    imCreate 0 (PModel.mk ["nested"]
        [("debug", .prim (.vBool false)),
         ("nested", .model (PModel.mk [] [("flag", .prim (.vBool false))]))]) =
      (CfgObj.mk 1 []
        [("debug", .plain (.vBool false)),
         ("nested", .obj (CfgObj.mk 0 [] [("flag", .plain (.vBool false))]))], 2) ∧
    attrGet (CfgObj.mk 1 []
        [("debug", .plain (.vBool false)),
         ("nested", .obj (CfgObj.mk 0 [] [("flag", .plain (.vBool false))]))]) "nested" =
      some (.obj (CfgObj.mk 0 [] [("flag", .plain (.vBool false))])) ∧
    attrGet
        (imUpdate 2
          (CfgObj.mk 1 []
            [("debug", .plain (.vBool false)),
             ("nested", .obj (CfgObj.mk 0 [] [("flag", .plain (.vBool false))]))])
          (PModel.mk ["nested"]
            [("debug", .prim (.vBool true)),
             ("nested", .model (PModel.mk [] [("flag", .prim (.vBool true))]))])).1
        "nested" =
      some (.plain (.vDict [("flag", .vBool true)])) ∧
    attrGet (CfgObj.mk 1 [] [("nested", .obj (CfgObj.mk 0 [.s "nested"] []))]) "nested" =
      some (.obj (CfgObj.mk 0 [.s "nested"] [])) ∧
    attrGet
        (mpUpdateObj 2
          (CfgObj.mk 1 [] [("nested", .obj (CfgObj.mk 0 [.s "nested"] []))])
          (PModel.mk ["nested"]
            [("debug", .prim (.vBool true)),
             ("nested", .model (PModel.mk [] [("flag", .prim (.vBool true))]))])).1
        "nested" =
      some (.obj (CfgObj.mk 0 [.s "nested"] [])) := by
  refine ⟨?_, rfl, ?_, rfl, ?_⟩
  · simp [imCreate, imCreateAttrs, imMapChild, dumpVal, modelDump, dumpFields, isVNone]
  · rfl
  · rw [mpUpdateObj]
    norm_num [mpUpdateNested, pfieldGet, attrGet, CfgObj.attrs, List.lookup, avalSet,
      CfgObj.oid, CfgObj.accessPath, mpUpdateObj]

/-- Which configuration class the manager was constructed with. -/
inductive CfgKind where
  | inMemory
  | multiprocessing

/-- Embedding of the `ConfigManager` state relevant to loading:
the resolved config paths, the compiled property list, project metadata,
the optional pre-validation hook, the env names used by the last load, and
the held configuration object (`_config`, paired with the shared dict used
by the multiprocessing backend; empty for the in-memory one). -/
structure Mgr where
  kind : CfgKind
  cfgProps : List ConfigProperty
  projectMetadata : Option Value
  projectName : Option String
  metadataAsProp : Option String
  configPaths : List String
  preHook : Option (DictT → DictT)
  usedEnv : List String
  config : Option (CfgObj × DictT)

/-- The pipeline of `ConfigManager.load_configuration` up to validation:
seed with the caller mapping, inject project metadata, fold the files over
the resolved paths with the deep merge, assign environment variables
(through the manager's own loop), then run the pre-validation hook.
`fileAt` stands for the external open+yaml.safe_load of one path. -/
def mergedRawConfig (m : Mgr) (fileAt : String → DictT)
    (environ : String → Option String) (initial : Option DictT) :
    Except PyErr (DictT × List String) :=
  let cfg := initial.getD []
  let cfg :=
    match m.projectMetadata, m.metadataAsProp with
    | some md, some k => dictSet cfg k md
    | _, _ => cfg
  let cfg := m.configPaths.foldl (fun acc p => cross_merge_dicts acc (fileAt p)) cfg
  match mgr_assign_env_to_dict m.cfgProps m.projectName environ cfg with
  | .error e => .error e
  | .ok (cfg2, used) =>
    .ok ((match m.preHook with
          | some hook => hook cfg2
          | none => cfg2), used)

/-- Embedding of `ConfigManager.load_configuration`: merge, validate via
the external validator, then either build the configuration object on the
first successful load or update the held one in place.  On a validation
error the exception propagates and `self._config` is untouched
(`self.used_env` was already reassigned before validation, as in the
source). -/
def load_configuration (m : Mgr) (validate : DictT → Except PyErr PModel)
    (fileAt : String → DictT) (environ : String → Option String)
    (initial : Option DictT) (n : Nat) : Mgr × Except PyErr (CfgObj × DictT) :=
  match mergedRawConfig m fileAt environ initial with
  | .error e => (m, .error e)
  | .ok (cfg, used) =>
    let m1 := {m with usedEnv := used}
    match validate cfg with
    | .error e => (m1, .error e)
    | .ok pm =>
      match m1.config with
      | none =>
        let created :=
          match m1.kind with
          | .inMemory => ((imCreate n pm).1, ([] : DictT))
          | .multiprocessing => (mpCreateRoot n [] pm).1
        ({m1 with config := some created}, .ok created)
      | some (o, sh) =>
        let updated :=
          match m1.kind with
          | .inMemory => ((imUpdate n o pm).1, sh)
          | .multiprocessing => (mpUpdateRoot n sh o pm).1
        ({m1 with config := some updated}, .ok updated)

/-- C3: if validation of the merged raw mapping fails, the error is
returned to the caller and the previously bound configuration object is
left untouched — no partial update of `self._config` is committed. -/
theorem claim_C3_validation_failure_no_commit (m : Mgr)
    (validate : DictT → Except PyErr PModel) (fileAt : String → DictT)
    (environ : String → Option String) (initial : Option DictT) (n : Nat)
    (cfg : DictT) (used : List String) (e : PyErr)
    (h1 : mergedRawConfig m fileAt environ initial = .ok (cfg, used))
    (h2 : validate cfg = .error e) :
    (load_configuration m validate fileAt environ initial n).2 = .error e ∧
    (load_configuration m validate fileAt environ initial n).1.config = m.config := by
  rw [load_configuration, h1]
  simp [h2]

/-- Witness for C3: a manager with no files, no env matches and a held
configuration object; the validator rejects, the error propagates, and
the held object is unchanged. -/
theorem claim_C3_witness :
    (load_configuration
        ⟨.inMemory, [], none, none, none, [], none, [],
          some (CfgObj.mk 0 [] [("debug", .plain (.vBool false))], [])⟩
        (fun _ => .error (.validationError "invalid"))
        (fun _ => []) (fun _ => none) none 5).2 =
      .error (.validationError "invalid") ∧
    (load_configuration
        ⟨.inMemory, [], none, none, none, [], none, [],
          some (CfgObj.mk 0 [] [("debug", .plain (.vBool false))], [])⟩
        (fun _ => .error (.validationError "invalid"))
        (fun _ => []) (fun _ => none) none 5).1.config =
      some (CfgObj.mk 0 [] [("debug", .plain (.vBool false))], []) :=
  claim_C3_validation_failure_no_commit
    ⟨.inMemory, [], none, none, none, [], none, [],
      some (CfgObj.mk 0 [] [("debug", .plain (.vBool false))], [])⟩
    (fun _ => .error (.validationError "invalid"))
    (fun _ => []) (fun _ => none) none 5 [] [] (.validationError "invalid") rfl rfl

/-- The shared multiprocessing context record of `qstd_config/types.py`:
`{config, revision}` (this generation has no `initialized` flag). -/
structure MpCtx where
  config : Value
  revision : Nat

/-- Embedding of `qstd_config/storage.py::MultiprocessingStorage` together
with the one shared context and a token supply: `value` is `_value`,
`bound` whether `_multiprocessing_dict` is set, `currentRevision` is
`_current_revision`.  `next` supplies fresh revision tokens, modelling
`os.urandom(16).hex()` under the freshness invariant that a draw differs
from the token currently stored. -/
structure MpSys where
  value : PModel
  bound : Bool
  currentRevision : Option Nat
  ctx : MpCtx
  next : Nat

/-- The storage operations of `MultiprocessingStorage`. -/
inductive MpOp where
  | initStorage (isMain : Bool)
  | update (v : PModel)
  | current

/-- One operation of `MultiprocessingStorage`.  `init_storage` binds the
context and, in the main process, seeds `config` and a fresh `revision`;
`update` before binding raises and changes nothing, after binding it
writes the dump and a fresh revision (without touching the local value);
`current` re-validates the shared config only on a revision mismatch and
never writes the context. -/
def mpStep (validate : Value → PModel) (s : MpSys) : MpOp → MpSys
  | .initStorage isMain =>
    let s1 := {s with bound := true}
    if isMain then
      {s1 with ctx := ⟨modelDump s.value, s.next⟩, next := s.next + 1}
    else s1
  | .update v =>
    if s.bound then
      {s with ctx := ⟨modelDump v, s.next⟩, next := s.next + 1}
    else s
  | .current =>
    if s.bound then
      if s.currentRevision = some s.ctx.revision then s
      else
        {s with value := validate s.ctx.config, currentRevision := some s.ctx.revision}
    else s

/-- Freshness invariant of the token supply. -/
def mpWF (s : MpSys) : Prop :=
  s.ctx.revision < s.next

theorem mpStep_wf (validate : Value → PModel) (s : MpSys) (op : MpOp)
    (h : mpWF s) : mpWF (mpStep validate s op) := by
  cases op with
  | initStorage isMain =>
    cases isMain with
    | true => simp [mpStep, mpWF]
    | false => simpa [mpStep, mpWF] using h
  | update v =>
    by_cases hb : s.bound <;> simp [mpStep, mpWF, hb] <;> exact h
  | current =>
    by_cases hb : s.bound
    · by_cases hr : s.currentRevision = some s.ctx.revision <;>
        simp [mpStep, mpWF, hb, hr] <;> exact h
    · simpa [mpStep, mpWF, hb] using h

/-- Every single operation that changes the stored config also changes the
revision: any branch that writes `config` writes a fresh token into
`revision` in the same operation. -/
theorem mpStep_config_change_revision (validate : Value → PModel) (s : MpSys)
    (op : MpOp) (h : mpWF s) :
    (mpStep validate s op).ctx.config ≠ s.ctx.config →
      (mpStep validate s op).ctx.revision ≠ s.ctx.revision := by
  cases op with
  | initStorage isMain =>
    cases isMain with
    | true =>
      intro _
      rw [mpWF] at h
      simp [mpStep]
      omega
    | false =>
      intro hc
      simp [mpStep] at hc
  | update v =>
    by_cases hb : s.bound
    · intro _
      rw [mpWF] at h
      simp [mpStep, hb]
      omega
    · intro hc
      simp [mpStep, hb] at hc
  | current =>
    by_cases hb : s.bound
    · by_cases hr : s.currentRevision = some s.ctx.revision <;>
        (intro hc; simp [mpStep, hb, hr] at hc)
    · intro hc
      simp [mpStep, hb] at hc

/-- The sequence of system states along a run of storage operations. -/
def mpTrace (validate : Value → PModel) : MpSys → List MpOp → List MpSys
  | s, [] => [s]
  | s, op :: ops => s :: mpTrace validate (mpStep validate s op) ops

theorem mpTrace_head (validate : Value → PModel) (s : MpSys) (ops : List MpOp) :
    (mpTrace validate s ops).head? = some s := by
  cases ops <;> rfl

/-- C4 (amended): along every run of storage operations with fresh
revision tokens, whenever a step changes the stored `config`, it also
changes `revision` (a fresh token accompanies every config write); the
converse direction of the claimed equivalence fails — see the
counterexample. -/
theorem claim_C4_config_change_implies_revision_change
    (validate : Value → PModel) (s : MpSys) (ops : List MpOp) (h : mpWF s) :
    List.Chain'
      (fun a b => b.ctx.config ≠ a.ctx.config → b.ctx.revision ≠ a.ctx.revision)
      (mpTrace validate s ops) := by
  induction ops generalizing s with
  | nil => simp [mpTrace]
  | cons op ops ih =>
    rw [mpTrace, List.chain'_cons']
    refine ⟨?_, ih _ (mpStep_wf validate s op h)⟩
    intro y hy
    rw [mpTrace_head] at hy
    obtain rfl : mpStep validate s op = y := by simpa using hy
    exact mpStep_config_change_revision validate s op h

/-- Witness for the amended C4 at a concrete run: bind, update twice with
equal and different values, read. -/
theorem claim_C4_witness :
    mpWF ⟨PModel.mk [] [("debug", .prim (.vBool true))], false, none,
      ⟨.vDict [("debug", .vBool true)], 0⟩, 1⟩ ∧
    List.Chain'
      (fun a b => b.ctx.config ≠ a.ctx.config → b.ctx.revision ≠ a.ctx.revision)
      (mpTrace (fun _ => PModel.mk [] [])
        ⟨PModel.mk [] [("debug", .prim (.vBool true))], false, none,
          ⟨.vDict [("debug", .vBool true)], 0⟩, 1⟩
        [.initStorage true, .update (PModel.mk [] [("debug", .prim (.vBool true))]),
         .update (PModel.mk [] [("debug", .prim (.vBool false))]), .current]) :=
  ⟨Nat.zero_lt_one,
   claim_C4_config_change_implies_revision_change (fun _ => PModel.mk [] []) _ _
     Nat.zero_lt_one⟩

/-- C4 counterexample: an `update` with a value whose dump equals the
stored config changes `revision` (a fresh token) while `config` is
unchanged, so "revision changes if and only if config changes" is false:
the left-to-right direction fails at this step. -/
theorem claim_C4_counterexample :
    (mpStep (fun _ => PModel.mk [] [])
        ⟨PModel.mk [] [("debug", .prim (.vBool true))], true, none,
          ⟨.vDict [("debug", .vBool true)], 0⟩, 1⟩
        (.update (PModel.mk [] [("debug", .prim (.vBool true))]))).ctx.config =
      Value.vDict [("debug", .vBool true)] ∧
    (mpStep (fun _ => PModel.mk [] [])
        ⟨PModel.mk [] [("debug", .prim (.vBool true))], true, none,
          ⟨.vDict [("debug", .vBool true)], 0⟩, 1⟩
        (.update (PModel.mk [] [("debug", .prim (.vBool true))]))).ctx.revision = 1 ∧
    ¬ (((mpStep (fun _ => PModel.mk [] [])
          ⟨PModel.mk [] [("debug", .prim (.vBool true))], true, none,
            ⟨.vDict [("debug", .vBool true)], 0⟩, 1⟩
          (.update (PModel.mk [] [("debug", .prim (.vBool true))]))).ctx.revision ≠ 0) ↔
        ((mpStep (fun _ => PModel.mk [] [])
          ⟨PModel.mk [] [("debug", .prim (.vBool true))], true, none,
            ⟨.vDict [("debug", .vBool true)], 0⟩, 1⟩
          (.update (PModel.mk [] [("debug", .prim (.vBool true))]))).ctx.config ≠
          Value.vDict [("debug", .vBool true)])) := by
  have hcfg : (mpStep (fun _ => PModel.mk [] [])
      ⟨PModel.mk [] [("debug", .prim (.vBool true))], true, none,
        ⟨.vDict [("debug", .vBool true)], 0⟩, 1⟩
      (.update (PModel.mk [] [("debug", .prim (.vBool true))]))).ctx =
      ⟨.vDict [("debug", .vBool true)], 1⟩ := by
    simp [mpStep, modelDump, dumpFields, dumpVal]
  refine ⟨by rw [hcfg], by rw [hcfg], ?_⟩
  rw [hcfg]
  intro hiff
  exact (hiff.1 (by simp)) rfl

/-- Modelled from the spec: the shared context record
`{initialized, config, revision}` of the `MultiprocessingDictStorage`
backend, whose implementation is absent from the sources (only its tests
`tests/storage/test_multiprocessing_dict.py` and the spec describe it). -/
structure MpContext2 where
  initialized : Bool
  config : Value
  revision : Nat

/-- Modelled from the spec: the diagnostic warnings of the
`MultiprocessingDictStorage` backend. -/
inductive StorageWarning where
  | notInitializedWarning
  | reinitWarning

/-- Modelled from the spec: the error raised on `update` before `setup`. -/
inductive StorageError where
  | storageNotInitializedError

/-- Modelled from the spec: the local state of `MultiprocessingDictStorage`
— the held value, whether `setup` has bound a shared context, and the
last-seen revision token. -/
structure MpDictStorage where
  value : PModel
  bound : Bool
  lastSeenRevision : Option Nat

/-- Modelled from the spec: `setup(context)` binds the context; if the
context's `initialized` flag is false this call seeds it — writes the
current value serialized to a plain mapping and a fresh revision token,
then flips `initialized` true; if already initialized, attaching again is
idempotent on the context but emits a reinitialization warning. -/
def MpDictStorage.setup (st : MpDictStorage) (ctx : MpContext2) (fresh : Nat) :
    MpDictStorage × MpContext2 × List StorageWarning :=
  if ctx.initialized then
    ({st with bound := true}, ctx, [.reinitWarning])
  else
    ({st with bound := true}, ⟨true, modelDump st.value, fresh⟩, [])

/-- Modelled from the spec: `update(value)` before `setup` fails with
`StorageNotInitializedError`, leaving the storage and the shared context
unchanged; after `setup` it writes the serialized value and a fresh
revision token into the shared context. -/
def MpDictStorage.update (st : MpDictStorage) (ctx : MpContext2) (v : PModel)
    (fresh : Nat) : MpDictStorage × MpContext2 × Option StorageError :=
  if st.bound then
    (st, ⟨ctx.initialized, modelDump v, fresh⟩, none)
  else
    (st, ctx, some .storageNotInitializedError)

/-- C5: `setup` on an already-initialized context is idempotent — the
context (its `initialized`, `config` and `revision` fields) is left
unchanged and the held value untouched — and emits the reinitialization
warning; only a `setup` on a context whose `initialized` flag is false
seeds the serialized value, a fresh revision token, and flips the flag,
with no warning. -/
theorem claim_C5_setup_idempotent_warns (st : MpDictStorage) (ctx : MpContext2)
    (fresh : Nat) :
    (ctx.initialized = true →
      (MpDictStorage.setup st ctx fresh).2.1 = ctx ∧
      (MpDictStorage.setup st ctx fresh).2.2 = [.reinitWarning] ∧
      (MpDictStorage.setup st ctx fresh).1.value = st.value) ∧
    (ctx.initialized = false →
      (MpDictStorage.setup st ctx fresh).2.1 = ⟨true, modelDump st.value, fresh⟩ ∧
      (MpDictStorage.setup st ctx fresh).2.2 = [] ∧
      (MpDictStorage.setup st ctx fresh).1.bound = true) := by
  constructor
  · intro h
    simp [MpDictStorage.setup, h]
  · intro h
    simp [MpDictStorage.setup, h]

/-- Witness for C5: one already-initialized context (unchanged, warned)
and one fresh context (seeded and flipped), at concrete inputs. -/
theorem claim_C5_witness :
    (MpDictStorage.setup ⟨PModel.mk [] [], false, none⟩
        ⟨true, .vDict [("k", .vInt 1)], 7⟩ 9).2.1 =
      ⟨true, .vDict [("k", .vInt 1)], 7⟩ ∧
    (MpDictStorage.setup ⟨PModel.mk [] [], false, none⟩
        ⟨true, .vDict [("k", .vInt 1)], 7⟩ 9).2.2 = [.reinitWarning] ∧
    (MpDictStorage.setup ⟨PModel.mk [] [], false, none⟩
        ⟨false, .vNone, 0⟩ 9).2.1 =
      ⟨true, modelDump (PModel.mk [] []), 9⟩ ∧
    (MpDictStorage.setup ⟨PModel.mk [] [], false, none⟩
        ⟨false, .vNone, 0⟩ 9).2.2 = [] :=
  ⟨((claim_C5_setup_idempotent_warns ⟨PModel.mk [] [], false, none⟩
      ⟨true, .vDict [("k", .vInt 1)], 7⟩ 9).1 rfl).1,
   ((claim_C5_setup_idempotent_warns ⟨PModel.mk [] [], false, none⟩
      ⟨true, .vDict [("k", .vInt 1)], 7⟩ 9).1 rfl).2.1,
   ((claim_C5_setup_idempotent_warns ⟨PModel.mk [] [], false, none⟩
      ⟨false, .vNone, 0⟩ 9).2 rfl).1,
   ((claim_C5_setup_idempotent_warns ⟨PModel.mk [] [], false, none⟩
      ⟨false, .vNone, 0⟩ 9).2 rfl).2.1⟩

/-- C8: `update` on a `MultiprocessingDictStorage` before any `setup`
returns `StorageNotInitializedError` and leaves the shared context and the
held value exactly as they were. -/
theorem claim_C8_update_before_setup (st : MpDictStorage) (ctx : MpContext2)
    (v : PModel) (fresh : Nat) (h : st.bound = false) :
    MpDictStorage.update st ctx v fresh = (st, ctx, some .storageNotInitializedError) := by
  simp [MpDictStorage.update, h]

/-- Witness for C8 at a concrete unbound storage and context. -/
theorem claim_C8_witness :
    MpDictStorage.update ⟨PModel.mk [] [("debug", .prim (.vBool false))], false, none⟩
        ⟨false, .vNone, 0⟩ (PModel.mk [] [("debug", .prim (.vBool true))]) 3 =
      (⟨PModel.mk [] [("debug", .prim (.vBool false))], false, none⟩,
       ⟨false, .vNone, 0⟩, some .storageNotInitializedError) :=
  claim_C8_update_before_setup
    ⟨PModel.mk [] [("debug", .prim (.vBool false))], false, none⟩
    ⟨false, .vNone, 0⟩ (PModel.mk [] [("debug", .prim (.vBool true))]) 3 rfl
